import Mathlib

/-!
Verification of the autonomous sandboxed patch pipeline of this repository
(`src/agentic/auto_refactor/ace_executor.py`,
`src/agentic/auto_refactor/fers_refactor_planner.py`,
`src/agentic/auto_refactor/ace_config.py`) against its natural-language
specification.

Modelling conventions:
* Python strings are modelled as `List Char` (abbreviated `Str`); text files
  are assumed to use LF line breaks, so `str.splitlines()` is modelled as
  splitting on `'\n'`.
* External collaborators (the llama rewrite service, the filesystem, the
  pytest subprocess) are modelled as explicit oracle parameters; filesystem
  mutations performed by the merge-state tracker are modelled as operation
  traces.
* Machine integers are `Nat`/`Int`; Python integers are unbounded, so no
  wrap-around modelling is needed.
-/

abbrev Str := List Char

/-- ASCII whitespace recognized by Python `str.strip()` / `\s`:
space, TAB, LF, CR, VT (0x0b), FF (0x0c). -/
def isPySpace (c : Char) : Bool :=
  c == ' ' || c == '\t' || c == '\n' || c == '\r' || c == Char.ofNat 11 || c == Char.ofNat 12

/-- Python `str.lstrip()` (no argument: strips whitespace on the left). -/
def lstrip (s : Str) : Str := s.dropWhile isPySpace

/-- Python `str.rstrip()`. -/
def rstrip (s : Str) : Str := (s.reverse.dropWhile isPySpace).reverse

/-- Python `str.strip()`. -/
def pyStrip (s : Str) : Str := rstrip (lstrip s)

/-- Python `s.startswith(p)`. -/
def startsWith (p s : Str) : Bool := List.isPrefixOf p s

/-- Python `s.endswith("\n")`: the last character is a newline. -/
def endsWithNewline (s : Str) : Bool := s.getLast? == some '\n'

/-!
## `fers_refactor_planner.py`: helper functions

`estimate_tokens`, `chunk_text` and the mode selection `_select_mode` are
pure functions and are embedded directly.
-/

/-- Embeds `estimate_tokens(text)`:
`if not text: return 0` then `max(1, len(text) // 4)`. -/
def estimateTokens (text : Str) : Nat :=
  if text = [] then 0 else max 1 (text.length / 4)

/-- Loop of `chunk_text`: Python
`for i in range(0, len(text), step): chunk = text[i:i+size]; append;`
`if i + size >= len(text): break`.  The `range` guard is `i < len(text)`;
`step = max(1, size - overlap)` is applied at each increment (equivalent to
computing it once before the loop, as the source does). -/
def chunkTextLoop (text : Str) (size step i : Nat) : List Str :=
  if i < text.length then
    let chunk := (text.drop i).take size
    if text.length ≤ i + size then [chunk]
    else chunk :: chunkTextLoop text size step (i + max 1 step)
  else []
termination_by text.length - i
decreasing_by omega

/-- Embeds `chunk_text(text, size, overlap)` (fers_refactor_planner.py):
returns `[]` on empty input, otherwise slices of length `size` starting at
multiples of `step = max(1, size - overlap)`, stopping after the slice that
reaches the end of the text. -/
def chunkText (text : Str) (size overlap : Nat) : List Str :=
  if text = [] then [] else chunkTextLoop text size (size - overlap) 0

/-- Module constant `CHUNK_SIZE = 1000` (fers_refactor_planner.py). -/
def CHUNK_SIZE : Nat := 1000

/-- Module constant `CHUNK_OVERLAP = 100` (fers_refactor_planner.py). -/
def CHUNK_OVERLAP : Nat := 100

/-- Embeds the reassembly step of `_refactor_chunked_large_function`:
`new_body = "".join(new_chunks)` — plain concatenation of the per-chunk
results in original order. -/
def reassembleChunks (newChunks : List Str) : Str := newChunks.flatten

/-- Planner configuration values read in
`FullEvolutionaryRefactorPlanner.__init__` (with the module defaults
`SAFE_FN_TOKEN_LIMIT = 1200`, `SAFE_FILE_TOKEN_LIMIT = 3000`). -/
structure PlannerConfig where
  safeFnTokenLimit : Nat
  safeFileTokenLimit : Nat
deriving DecidableEq, Repr

/-- The module-default planner configuration. -/
def defaultPlannerConfig : PlannerConfig := ⟨1200, 3000⟩

/-- The refactor mode strings used by the planner
(`"AGGRESSIVE"`, `"SMALL_PATCH"`, `"FUNCTION_OR_CHUNK"`, `"MINIMAL"`).
`AGGRESSIVE` is the whole-file rewrite, `SMALL_PATCH` the conservative
small-patch strategy, `FUNCTION_OR_CHUNK` the function/chunk strategy, and
`MINIMAL` the tag recorded by the dead fallback branch of `plan_evolution`. -/
inductive RefactorMode where
  | AGGRESSIVE
  | SMALL_PATCH
  | FUNCTION_OR_CHUNK
  | MINIMAL
deriving DecidableEq, Repr

/-- Embeds `_select_mode(tokens)` (fers_refactor_planner.py):
`tokens <= 600 → AGGRESSIVE`, `tokens <= safe_file_token_limit → SMALL_PATCH`,
otherwise `FUNCTION_OR_CHUNK`.  The lower threshold 600 is hard-coded in the
source; the upper threshold is `self.safe_file_token_limit`. -/
def selectMode (cfg : PlannerConfig) (tokens : Nat) : RefactorMode :=
  if tokens ≤ 600 then .AGGRESSIVE
  else if tokens ≤ cfg.safeFileTokenLimit then .SMALL_PATCH
  else .FUNCTION_OR_CHUNK

/-!
## `ace_executor.py`: merge-state tracker

`_load_state` returns `{"merge_success_count": 0}` when the state file is
absent or unparsable (the `auto_merge_ready` key is then absent, i.e. falsy).
`_update_merge_state(success)` increments or resets the counter, derives the
ready flag, stamps the time and saves.  `_save_state` is a single direct
`write_text` of the serialized record (the timestamp is not modelled; it
plays no role in any claim).
-/

/-- Persisted merge state: `merge_success_count` and `auto_merge_ready`. -/
structure MergeState where
  count : Nat
  ready : Bool
deriving DecidableEq, Repr

/-- `_load_state` default for an absent or corrupt state file:
`{"merge_success_count": 0}` — counter 0, no ready flag (falsy). -/
def defaultMergeState : MergeState := ⟨0, false⟩

/-- Embeds the state transition of `_update_merge_state(success)`:
on success the counter is incremented, otherwise reset to 0;
`auto_merge_ready = success and count >= threshold` on the new counter. -/
def updateMergeState (threshold : Nat) (st : MergeState) (success : Bool) : MergeState :=
  let newCount := if success then st.count + 1 else 0
  ⟨newCount, success && decide (threshold ≤ newCount)⟩

/-- The length of the trailing run of `true` values in an outcome sequence. -/
def trailingTrueRun (l : List Bool) : Nat :=
  (l.reverse.takeWhile (fun b => b)).length

/-- Filesystem operations performed by the merge-state persistence code. -/
inductive FsOp where
  | writeFile (path : Str) (st : MergeState)
  | renameFile (src dst : Str)
deriving DecidableEq, Repr

/-- Whether a filesystem operation is a rename. -/
def FsOp.isRename : FsOp → Bool
  | .renameFile _ _ => true
  | _ => false

/-- Embeds `_save_state(state)` (ace_executor.py): a single direct
`self.state_file.write_text(json.dumps(state))` — one write of the complete
record straight to the state file, with no temporary file involved. -/
def saveStateOps (stateFile : Str) (st : MergeState) : List FsOp :=
  [.writeFile stateFile st]

/-- Embeds the persistence behaviour of `_update_merge_state(success)`:
compute the new state, then `_save_state` it; returns the new state together
with the filesystem operation trace. -/
def updateMergeStateOps (stateFile : Str) (threshold : Nat) (st : MergeState)
    (success : Bool) : MergeState × List FsOp :=
  let st' := updateMergeState threshold st success
  (st', saveStateOps stateFile st')

/-!
## `ace_executor.py`: test gate
-/

/-- Possible outcomes of the `subprocess.run(["pytest", "-q"], ...)` call in
`_run_pytest_in_sandbox`: the timeout fired (`subprocess.TimeoutExpired`),
the executable was missing (`FileNotFoundError`), or the process completed
with a return code and combined captured output. -/
inductive TestRunOutcome where
  | timeoutExpired
  | fileNotFound
  | completed (returncode : Int) (output : Str)
deriving DecidableEq, Repr

/-- Embeds `_run_pytest_in_sandbox` (ace_executor.py); returns
`(ok, output)`.  Timeout ⇒ `(False, f"pytest timeout after {timeout} seconds")`;
missing executable ⇒ `(False, "pytest not found in environment")`;
completion ⇒ `(returncode == 0, captured output)`. -/
def runPytestInSandbox (timeoutSec : Nat) (outcome : TestRunOutcome) : Bool × Str :=
  match outcome with
  | .timeoutExpired =>
      (false, "pytest timeout after ".toList ++ (Nat.repr timeoutSec).toList ++ " seconds".toList)
  | .fileNotFound => (false, "pytest not found in environment".toList)
  | .completed rc output => (rc == 0, output)

/-!
# Claim C1 — merge-state counter over outcome sequences
-/

/-- C1 counterexample: the claim quantifies over *every* persisted
MergeState, but starting from a persisted state with counter 1, feeding the
single outcome `true` stores counter 2 while the trailing run of `true`
outcomes in the sequence `[true]` has length 1.  The stored counter therefore
does not equal the trailing-run length for arbitrary persisted states. -/
theorem mergeState_counter_c1_counterexample :
    (List.foldl (updateMergeState 3) ⟨1, false⟩ [true]).count = 2 ∧
    trailingTrueRun [true] = 1 := by
  constructor <;> rfl

/-- C1 (amended): starting from the default persisted MergeState (counter 0,
ready flag absent — the state `_load_state` yields for an absent or corrupt
file), for every finite sequence of boolean outcomes fed one at a time to
`_update_merge_state`, the stored counter equals the length of the trailing
run of `true` outcomes, and `auto_merge_ready` is true iff the last outcome
is `true` and that trailing run length is ≥ the configured threshold. -/
theorem mergeState_counter_c1 (threshold : Nat) (l : List Bool) :
    (List.foldl (updateMergeState threshold) defaultMergeState l).count = trailingTrueRun l ∧
    (List.foldl (updateMergeState threshold) defaultMergeState l).ready =
      (l.getLast?.getD false && decide (threshold ≤ trailingTrueRun l)) := by
  induction l using List.reverseRecOn with
  | nil => simp [defaultMergeState, trailingTrueRun]
  | append_singleton l b ih =>
      have hfold :
          List.foldl (updateMergeState threshold) defaultMergeState (l ++ [b]) =
            updateMergeState threshold
              (List.foldl (updateMergeState threshold) defaultMergeState l) b := by
        simp
      have htrail : trailingTrueRun (l ++ [b]) =
          if b then trailingTrueRun l + 1 else 0 := by
        simp only [trailingTrueRun, List.reverse_append, List.reverse_singleton,
          List.singleton_append, List.takeWhile]
        cases b <;> simp
      rw [hfold]
      cases b with
      | false =>
          simp [updateMergeState, htrail]
      | true =>
          refine ⟨?_, ?_⟩
          · simp [updateMergeState, htrail, ih.1]
          · simp [updateMergeState, htrail, ih.1]

/-!
# Claim C4 — strategy selection thresholds
-/

/-- C4: strategy selection is the pure function `_select_mode` of the
estimated token cost and the thresholds T1 = 600 (hard-coded) and
T2 = `safe_file_token_limit`: cost ≤ T1 selects the whole-file rewrite
(`AGGRESSIVE`), T1 < cost ≤ T2 the small-patch strategy, cost > T2 the
function/chunk strategy; the boundary costs T1, T1+1, T2, T2+1 map to
whole-file, small-patch, small-patch, function/chunk respectively
(given the configured T2 exceeds the hard-coded T1, as the default
T2 = 3000 does). -/
theorem selectMode_thresholds_c4 (cfg : PlannerConfig)
    (h : 600 < cfg.safeFileTokenLimit) :
    (∀ cost, cost ≤ 600 → selectMode cfg cost = .AGGRESSIVE) ∧
    (∀ cost, 600 < cost → cost ≤ cfg.safeFileTokenLimit →
      selectMode cfg cost = .SMALL_PATCH) ∧
    (∀ cost, cfg.safeFileTokenLimit < cost →
      selectMode cfg cost = .FUNCTION_OR_CHUNK) ∧
    selectMode cfg 600 = .AGGRESSIVE ∧
    selectMode cfg 601 = .SMALL_PATCH ∧
    selectMode cfg cfg.safeFileTokenLimit = .SMALL_PATCH ∧
    selectMode cfg (cfg.safeFileTokenLimit + 1) = .FUNCTION_OR_CHUNK := by
  refine ⟨?_, ?_, ?_, ?_, ?_, ?_, ?_⟩
  · intro cost h1
    simp only [selectMode]
    split_ifs <;> first | rfl | omega
  · intro cost h1 h2
    simp only [selectMode]
    split_ifs <;> first | rfl | omega
  · intro cost h1
    simp only [selectMode]
    split_ifs <;> first | rfl | omega
  all_goals simp only [selectMode]
  all_goals split_ifs <;> first | rfl | omega

/-- C4 witness: the theorem instantiated at the default configuration
(T2 = 3000) and evaluated at the four boundary costs. -/
theorem selectMode_thresholds_c4_witness :
    selectMode defaultPlannerConfig 600 = .AGGRESSIVE ∧
    selectMode defaultPlannerConfig 601 = .SMALL_PATCH ∧
    selectMode defaultPlannerConfig 3000 = .SMALL_PATCH ∧
    selectMode defaultPlannerConfig 3001 = .FUNCTION_OR_CHUNK := by
  have h := selectMode_thresholds_c4 defaultPlannerConfig (by decide)
  exact ⟨h.2.2.2.1, h.2.2.2.2.1,
    h.2.1 3000 (by decide) (by decide), h.2.2.1 3001 (by decide)⟩

/-!
# Claim C6 — merge-state persistence is a direct write, not temp+rename
-/

/-- C6 counterexample: a concrete `_update_merge_state` invocation
(initial counter 0, success) emits exactly one filesystem operation — a
direct write of the new record to `.ace_state.json` — and no rename at all,
so the update is not performed by writing a temporary file and renaming it
over the state file as the claim states. -/
theorem saveState_c6_counterexample :
    (updateMergeStateOps ".ace_state.json".toList 3 ⟨0, false⟩ true).2 =
      [FsOp.writeFile ".ace_state.json".toList ⟨1, false⟩] ∧
    ((updateMergeStateOps ".ace_state.json".toList 3 ⟨0, false⟩ true).2.all
      (fun op => !op.isRename)) = true := by
  constructor <;> rfl

/-- C6 (amended): every update of the persisted MergeState writes the full
new state record back in a *single direct write* to the state file — the
complete record in one operation, but with no temporary file and no rename
(so the write-to-temp-then-rename atomicity pattern of the claim is absent
from the code; write errors are merely caught and logged). -/
theorem saveState_direct_write_c6 (stateFile : Str) (threshold : Nat)
    (st : MergeState) (success : Bool) :
    (updateMergeStateOps stateFile threshold st success).2 =
      [FsOp.writeFile stateFile (updateMergeState threshold st success)] ∧
    ((updateMergeStateOps stateFile threshold st success).2.all
      (fun op => !op.isRename)) = true := by
  constructor <;> rfl

/-!
# Claim C8 — test-gate result contract
-/

/-- C8: for every test-gate invocation, a timeout yields `passed = false`
with a message containing "timeout"; a missing test-runner executable yields
`passed = false` with a message containing "not found"; a completed process
yields `passed = true` exactly when the exit code is zero, and any non-zero
exit code yields `passed = false` with the captured combined output. -/
theorem testGate_results_c8 (t : Nat) (outcome : TestRunOutcome) :
    (outcome = .timeoutExpired →
      (runPytestInSandbox t outcome).1 = false ∧
      "timeout".toList <:+: (runPytestInSandbox t outcome).2) ∧
    (outcome = .fileNotFound →
      (runPytestInSandbox t outcome).1 = false ∧
      "not found".toList <:+: (runPytestInSandbox t outcome).2) ∧
    (∀ rc output, outcome = .completed rc output →
      ((runPytestInSandbox t outcome).1 = true ↔ rc = 0) ∧
      (rc ≠ 0 → (runPytestInSandbox t outcome).1 = false ∧
        (runPytestInSandbox t outcome).2 = output)) := by
  refine ⟨?_, ?_, ?_⟩
  · rintro rfl
    refine ⟨rfl, ?_⟩
    refine ⟨"pytest ".toList, " after ".toList ++ (Nat.repr t).toList ++ " seconds".toList, ?_⟩
    simp [runPytestInSandbox]
  · rintro rfl
    refine ⟨rfl, ⟨"pytest ".toList, " in environment".toList, ?_⟩⟩
    simp [runPytestInSandbox]
  · rintro rc output rfl
    refine ⟨?_, ?_⟩
    · simp [runPytestInSandbox]
    · intro hrc
      simp [runPytestInSandbox, hrc]

/-- C8 witness: the theorem applied at a concrete timeout outcome and at a
concrete failing exit code. -/
theorem testGate_results_c8_witness :
    ((runPytestInSandbox 180 .timeoutExpired).1 = false ∧
      "timeout".toList <:+: (runPytestInSandbox 180 .timeoutExpired).2) ∧
    ((runPytestInSandbox 180 (.completed 1 "boom".toList)).1 = false ∧
      (runPytestInSandbox 180 (.completed 1 "boom".toList)).2 = "boom".toList) := by
  refine ⟨(testGate_results_c8 180 .timeoutExpired).1 rfl, ?_⟩
  exact ((testGate_results_c8 180 (.completed 1 "boom".toList)).2.2 1 "boom".toList rfl).2
    (by decide)

/-!
## `ace_executor.py`: full refactor cycle and processed-file log

`run_full_refactor_cycle` is embedded as a function of an explicit
environment capturing the results of its external interactions: the
discovered candidate files, the planner's patches, per-path write success in
the sandbox and the main tree, the pytest outcome, the dry-run and
auto-apply flags, the approval id, and the persisted merge state.  The
returned value carries the status, the applied-patch count, and the list of
`ProcessedFileLog` entries appended during the cycle (timestamps and the
free-form `details` payload are not modelled; no claim mentions them).
-/

/-- A planner patch: `{"file": rel_path, "new_code": text}`. -/
structure Patch where
  file : Str
  newCode : Str
deriving DecidableEq, Repr

/-- A `processed_files.jsonl` entry (status string and file list). -/
structure LogEntry where
  status : Str
  files : List Str
deriving DecidableEq, Repr

/-- The terminal statuses of `run_full_refactor_cycle`. -/
inductive CycleStatus where
  | NO_FILES
  | NO_CHANGES
  | FAIL_TESTS
  | DRY_RUN_OK
  | AWAITING_APPROVAL
  | APPLIED
  | APPLIED_AUTO_MERGE_READY
deriving DecidableEq, Repr

/-- Environment of one cycle run (external-collaborator results). -/
structure CycleEnv where
  targetFiles : List Str
  patches : List Patch
  sandboxWriteOk : Str → Bool
  mainWriteOk : Str → Bool
  testTimeout : Nat
  testOutcome : TestRunOutcome
  dryRun : Bool
  autoApply : Bool
  approvalId : Str
  mergeState : MergeState
  threshold : Nat

/-- Embeds `_apply_patches_in_sandbox` / `_apply_patches_in_main_repo`:
skips a patch whose `file` is falsy, counts each successful write, logs and
skips a failed write without aborting the rest. -/
def applyPatchCount (writeOk : Str → Bool) (patches : List Patch) : Nat :=
  patches.countP (fun p => !p.file.isEmpty && writeOk p.file)

/-- Embeds `run_full_refactor_cycle` (ace_executor.py).  Returns
`(status, applied_patches, log entries appended)`.  Merge-state updates on
the FAIL_TESTS / DRY_RUN_OK / AWAITING_APPROVAL / APPLIED paths follow
`updateMergeState`; only the APPLIED path's result feeds back into the
returned status. -/
def runFullRefactorCycle (env : CycleEnv) : CycleStatus × Nat × List LogEntry :=
  if env.targetFiles = [] then (.NO_FILES, 0, [])
  else if env.patches = [] then (.NO_CHANGES, 0, [])
  else
    let applied := applyPatchCount env.sandboxWriteOk env.patches
    if applied = 0 then (.NO_CHANGES, 0, [])
    else
      let tr := runPytestInSandbox env.testTimeout env.testOutcome
      if !tr.1 then (.FAIL_TESTS, 0, [⟨"tests_failed".toList, env.targetFiles⟩])
      else if env.dryRun then
        (.DRY_RUN_OK, applied, [⟨"dry_run_passed".toList, env.targetFiles⟩])
      else if !env.autoApply then
        (.AWAITING_APPROVAL, 0, [⟨"awaiting_approval".toList, env.targetFiles⟩])
      else
        let appliedMain := applyPatchCount env.mainWriteOk env.patches
        let merge := updateMergeState env.threshold env.mergeState true
        (if merge.ready then .APPLIED_AUTO_MERGE_READY else .APPLIED, appliedMain,
          [⟨"applied".toList, env.targetFiles⟩])

/-- The terminal statuses on which the cycle appends a log entry. -/
def isLoggingStatus : CycleStatus → Bool
  | .NO_FILES => false
  | .NO_CHANGES => false
  | _ => true

/-!
# Claim C2 — one ProcessedFileLog entry per terminal state
-/

/-- C2 counterexample: a cycle that terminates in `NO_FILES` (empty
candidate set) appends *zero* ProcessedFileLog entries, not exactly one as
the claim states for every terminal state.  (The same holds for both
`NO_CHANGES` exits.) -/
theorem cycle_log_c2_counterexample :
    (runFullRefactorCycle
      ⟨[], [], fun _ => true, fun _ => true, 180, .completed 0 [],
        false, false, [], ⟨0, false⟩, 3⟩).1 = .NO_FILES ∧
    (runFullRefactorCycle
      ⟨[], [], fun _ => true, fun _ => true, 180, .completed 0 [],
        false, false, [], ⟨0, false⟩, 3⟩).2.2 = [] := by
  constructor <;> rfl

/-- C2 (amended): a cycle ending in FAIL_TESTS, DRY_RUN_OK,
AWAITING_APPROVAL, APPLIED or APPLIED_AUTO_MERGE_READY appends exactly one
ProcessedFileLog entry, and that entry names the candidate file set handled
in the cycle; a cycle ending in NO_FILES or NO_CHANGES appends no entry. -/
theorem cycle_log_c2 (env : CycleEnv) :
    (isLoggingStatus (runFullRefactorCycle env).1 = true →
      (runFullRefactorCycle env).2.2.length = 1 ∧
      ∀ e ∈ (runFullRefactorCycle env).2.2, e.files = env.targetFiles) ∧
    (isLoggingStatus (runFullRefactorCycle env).1 = false →
      (runFullRefactorCycle env).2.2 = []) := by
  by_cases h1 : env.targetFiles = []
  · simp [runFullRefactorCycle, h1, isLoggingStatus]
  · by_cases h2 : env.patches = []
    · simp [runFullRefactorCycle, h1, h2, isLoggingStatus]
    · by_cases h3 : applyPatchCount env.sandboxWriteOk env.patches = 0
      · simp [runFullRefactorCycle, h1, h2, h3, isLoggingStatus]
      · by_cases h4 : (runPytestInSandbox env.testTimeout env.testOutcome).1 = true
        · by_cases h5 : env.dryRun = true
          · simp [runFullRefactorCycle, h1, h2, h3, h4, h5, isLoggingStatus]
          · by_cases h6 : env.autoApply = true
            · cases hr : (updateMergeState env.threshold env.mergeState true).ready <;>
                simp [runFullRefactorCycle, h1, h2, h3, h4, h5, h6, hr, isLoggingStatus]
            · simp [runFullRefactorCycle, h1, h2, h3, h4, h5, h6, isLoggingStatus]
        · have h4' : (runPytestInSandbox env.testTimeout env.testOutcome).1 = false := by
            cases hb : (runPytestInSandbox env.testTimeout env.testOutcome).1
            · rfl
            · exact absurd hb h4
          simp [runFullRefactorCycle, h1, h2, h3, h4', isLoggingStatus]

/-- C2 witness: the theorem applied to a concrete failing-tests cycle
(one candidate, one applied patch, pytest exit code 1). -/
theorem cycle_log_c2_witness :
    (runFullRefactorCycle
      ⟨["a.py".toList], [⟨"a.py".toList, "x".toList⟩], fun _ => true, fun _ => true,
        180, .completed 1 "fail".toList, false, false, [], ⟨0, false⟩, 3⟩).2.2.length = 1 := by
  exact ((cycle_log_c2
    ⟨["a.py".toList], [⟨"a.py".toList, "x".toList⟩], fun _ => true, fun _ => true,
      180, .completed 1 "fail".toList, false, false, [], ⟨0, false⟩, 3⟩).1 rfl).1

/-!
## `ace_config.py`: profile resolution

`apply_profile` is embedded over a raw-configuration record whose value type
`V` is abstract (YAML leaf values).  Python dict semantics:
`raw.get(k) or ...` treats an empty string as falsy; `profiles.get(selected,
{})` yields an empty overlay for an unknown name; `dict.update` overwrites
existing keys in place and appends new ones.  `apply_profile` prints only
informational lines; the warning lines a run can emit come from
`validate_schema` and are returned explicitly by `validateSchema`.
-/

/-- Python `str.upper()` (ASCII semantics). -/
def pyUpper (s : Str) : Str := s.map Char.toUpper

/-- Lookup in an association list (Python `d.get(k)`). -/
def lookupKey (m : List (Str × α)) (k : Str) : Option α :=
  (m.find? (fun p => p.1 == k)).map (fun p => p.2)

/-- Python `d[k] = v`: overwrite in place if present, else append. -/
def setKey (m : List (Str × α)) (k : Str) (v : α) : List (Str × α) :=
  if m.any (fun p => p.1 == k) then m.map (fun p => if p.1 == k then (k, v) else p)
  else m ++ [(k, v)]

/-- Python `base.update(overlay)`: overlay keys win, base order kept. -/
def dictUpdate (base overlay : List (Str × α)) : List (Str × α) :=
  overlay.foldl (fun m p => setKey m p.1 p.2) base

/-- A profile overlay block: optional `ace` and `fers` sub-blocks. -/
structure ProfileBlock (V : Type) where
  ace : Option (List (Str × V))
  fers : Option (List (Str × V))
deriving DecidableEq

/-- The raw configuration document (`settings.yaml` after `yaml.safe_load`):
the recognized top-level keys, each absent (`none`) or present. -/
structure RawConfig (V : Type) where
  fersProfile : Option Str
  globalProfile : Option Str
  profiles : Option (List (Str × ProfileBlock V))
  ace : Option (List (Str × V))
  fers : Option (List (Str × V))
deriving DecidableEq

/-- Result of `apply_profile`: the updated raw document, the resolved
profile name, and the warning lines emitted (none — `apply_profile` prints
only informational messages). -/
structure ApplyProfileResult (V : Type) where
  raw : RawConfig V
  selected : Str
  warnings : List Str
deriving DecidableEq

/-- Embeds `apply_profile(profile_override)` (ace_config.py):
a truthy CLI override is uppercased into `fers_profile`; the selector is
resolved by the falsy-aware chain `fers_profile or global_profile or
"BALANCED"` and uppercased; the overlay is `profiles.get(selected, {})`
(an unknown name yields the empty overlay); `ace`/`fers` are created if
absent and updated with the overlay's sub-blocks.  No warning is emitted. -/
def applyProfile (override : Option Str) (raw : RawConfig V) : ApplyProfileResult V :=
  let raw1 := match override with
    | some o => if o ≠ [] then { raw with fersProfile := some (pyUpper o) } else raw
    | none => raw
  let fromGlobal := match raw1.globalProfile with
    | some g => if g ≠ [] then g else "BALANCED".toList
    | none => "BALANCED".toList
  let sel0 := match raw1.fersProfile with
    | some s => if s ≠ [] then s else fromGlobal
    | none => fromGlobal
  let selected := pyUpper sel0
  let block := (lookupKey (raw1.profiles.getD []) selected).getD ⟨none, none⟩
  let aceBase := raw1.ace.getD []
  let fersBase := raw1.fers.getD []
  let ace' := match block.ace with
    | some b => dictUpdate aceBase b
    | none => aceBase
  let fers' := match block.fers with
    | some b => dictUpdate fersBase b
    | none => fersBase
  ⟨{ raw1 with ace := some ace', fers := some fers' }, selected, []⟩

/-- Embeds `validate_schema` (ace_config.py): warning lines for missing
`profiles`/`fers`/`ace` sections, and an error line when a *present*
`global_profile` is not one of FAST_SAFE/BALANCED/DEEP.  An unknown
`fers_profile` produces no line at all. -/
def validateSchema (raw : RawConfig V) : List Str :=
  (if raw.profiles.isNone then ["profiles block missing in settings.yaml".toList] else []) ++
  (if raw.fers.isNone then ["fers block missing in settings.yaml".toList] else []) ++
  (if raw.ace.isNone then ["ace block missing in settings.yaml".toList] else []) ++
  (match raw.globalProfile with
    | some g =>
        if g = "FAST_SAFE".toList ∨ g = "BALANCED".toList ∨ g = "DEEP".toList then []
        else ["Invalid global_profile: ".toList ++ g]
    | none => [])

/-!
# Claim C7 — unknown profile name handling
-/

/-- The configuration document used in the C7 counterexample: all sections
present, `fers_profile: WEIRD`, and a `BALANCED` profile whose `ace` overlay
would set key `x` to 1 over the base value 0. -/
def c7Raw : RawConfig Nat :=
  ⟨some "WEIRD".toList, none,
    some [("BALANCED".toList, ⟨some [("x".toList, 1)], none⟩)],
    some [("x".toList, 0)], some []⟩

/-- C7 counterexample: with the resolved selector `WEIRD` naming no entry of
the profiles mapping, `apply_profile` emits no warning, keeps the unknown
name as the selected profile, and leaves the base `ace` block unchanged —
it silently applies no overlay instead of falling back to the documented
default profile (whose overlay would have set `x` to 1); `validate_schema`
is silent as well. -/
theorem applyProfile_c7_counterexample :
    lookupKey ((c7Raw.profiles).getD []) "WEIRD".toList = none ∧
    (applyProfile none c7Raw).selected = "WEIRD".toList ∧
    (applyProfile none c7Raw).warnings = [] ∧
    (applyProfile none c7Raw).raw.ace = some [("x".toList, 0)] ∧
    validateSchema c7Raw = [] ∧
    dictUpdate [("x".toList, 0)] [("x".toList, 1)] = [("x".toList, 1)] := by
  refine ⟨rfl, rfl, rfl, rfl, rfl, rfl⟩

/-- C7 (amended): resolution precedence holds (a non-empty CLI override
always wins, uppercased), but when the resolved selector names no entry of
the profiles mapping the code emits no warning and applies no overlay: the
selected name is kept and the `ace`/`fers` blocks equal the base blocks
unchanged.  The hard-coded default name BALANCED is only used when no
selector is stored, never as a fallback for an unknown name. -/
theorem applyProfile_unknown_c7 (V : Type) (raw : RawConfig V) (override : Option Str) :
    ((applyProfile override raw).warnings = []) ∧
    (∀ o, override = some o → o ≠ [] →
      (applyProfile override raw).selected = pyUpper (pyUpper o)) ∧
    (lookupKey ((applyProfile override raw).raw.profiles.getD [])
        (applyProfile override raw).selected = none →
      (applyProfile override raw).raw.ace = some (raw.ace.getD []) ∧
      (applyProfile override raw).raw.fers = some (raw.fers.getD [])) := by
  refine ⟨rfl, ?_, ?_⟩
  · rintro o rfl ho
    have hne : pyUpper o ≠ [] := by
      simpa [pyUpper] using ho
    simp [applyProfile, ho, hne]
  · intro hnone
    match override with
    | none =>
        simp only [applyProfile] at hnone ⊢
        rw [hnone]
        simp
    | some o =>
        by_cases ho : o = []
        · simp only [applyProfile, ho, ne_eq, not_true_eq_false, if_false] at hnone ⊢
          rw [hnone]
          simp
        · simp only [applyProfile, ne_eq, ho, not_false_eq_true, if_true] at hnone ⊢
          rw [hnone]
          simp

/-- C7 witness: the amended theorem applied at concrete inputs — a lowercase
CLI override wins (uppercased), and for the `WEIRD` selector of `c7Raw` the
base blocks pass through unchanged with no warning. -/
theorem applyProfile_unknown_c7_witness :
    (applyProfile (some "deep".toList) c7Raw).warnings = [] ∧
    (applyProfile (some "deep".toList) c7Raw).selected = "DEEP".toList ∧
    (applyProfile none c7Raw).raw.ace = some [("x".toList, 0)] := by
  refine ⟨(applyProfile_unknown_c7 Nat c7Raw (some "deep".toList)).1, ?_, ?_⟩
  · have h := (applyProfile_unknown_c7 Nat c7Raw (some "deep".toList)).2.1
      "deep".toList rfl (by decide)
    rw [h]
    rfl
  · exact ((applyProfile_unknown_c7 Nat c7Raw none).2.2 (by rfl)).1

/-!
## `ace_executor.py`: candidate discovery

`_discover_target_files` walks `src/**/*.py`; the walk itself is filesystem
I/O, so the embedding takes the enumerated `(relative path, byte size)`
pairs as input, together with the already-processed path set from
`_load_processed_set` and the resolved `max_files` value.  The source
excludes a file when any of the five literal patterns occurs as a substring
of its (slash-normalized) relative path, drops empty files, sorts by the key
`(rel in processed, size)` (Python's stable ascending sort; `False < True`
puts never-processed files first, then ascending size) and truncates to
`max_files` unless `max_files <= 0`.
-/

/-- A discovered candidate: slash-normalized relative path and byte size. -/
structure FileMeta where
  rel : Str
  size : Nat
deriving DecidableEq, Repr

/-- The exclusion substrings of `_discover_target_files`:
`"/tests/", "/test_", "sandbox_repo/", ".venv/", "__pycache__/"`. -/
def exclusionPatterns : List Str :=
  ["/tests/".toList, "/test_".toList, "sandbox_repo/".toList,
    ".venv/".toList, "__pycache__/".toList]

/-- Python `any(bad in s for bad in ...)`: some pattern is a substring. -/
def excludedPath (rel : Str) : Bool :=
  exclusionPatterns.any (fun bad => decide (bad <:+: rel))

/-- The sort key comparison of `_discover_target_files`:
Python tuple order on `(rel in processed, size)`, with `False < True`. -/
def discoverKeyLe (processed : List Str) (a b : FileMeta) : Bool :=
  let pa := processed.contains a.rel
  let pb := processed.contains b.rel
  (!pa && pb) || (pa == pb && decide (a.size ≤ b.size))

/-- Embeds `_discover_target_files` (ace_executor.py) on the enumerated
walk: filter out excluded and empty files, stable-sort by
`(already-processed, size)`, then truncate to `max_files` (no truncation
when `max_files <= 0`, which is also what a non-digit configured value
resolves to). -/
def discoverTargetFiles (files : List FileMeta) (processed : List Str)
    (maxFiles : Int) : List FileMeta :=
  let kept := files.filter (fun f => !excludedPath f.rel && f.size != 0)
  let sortedFiles := kept.mergeSort (discoverKeyLe processed)
  if maxFiles ≤ 0 then sortedFiles else sortedFiles.take maxFiles.toNat

/-- The discovery sort key is total. -/
theorem discoverKeyLe_total (processed : List Str) (a b : FileMeta) :
    (discoverKeyLe processed a b || discoverKeyLe processed b a) = true := by
  cases ha : processed.contains a.rel <;> cases hb : processed.contains b.rel <;>
    simp only [discoverKeyLe, ha, hb] <;> simp <;> omega

/-- The discovery sort key is transitive. -/
theorem discoverKeyLe_trans (processed : List Str) (a b c : FileMeta)
    (hab : discoverKeyLe processed a b = true)
    (hbc : discoverKeyLe processed b c = true) :
    discoverKeyLe processed a c = true := by
  cases ha : processed.contains a.rel <;> cases hb : processed.contains b.rel <;>
    cases hc : processed.contains c.rel <;>
    simp only [discoverKeyLe, ha, hb, hc] at hab hbc ⊢ <;> simp_all <;> omega

/-!
# Claim C9 — candidate discovery filter, order, truncation
-/

/-- C9: every path returned by candidate discovery contains none of the
configured exclusion substrings and has non-zero size; the returned
sequence is sorted by the composite key (never-previously-attempted first,
then ascending byte size); it has at most `maxFiles` entries when
`maxFiles > 0` and is the full filtered set (no truncation) when
`maxFiles ≤ 0`; and an empty input yields the empty sequence (a valid
outcome, not an error). -/
theorem discoverTargetFiles_c9 (files : List FileMeta) (processed : List Str)
    (maxFiles : Int) :
    (∀ f ∈ discoverTargetFiles files processed maxFiles,
      f.size ≠ 0 ∧ ∀ bad ∈ exclusionPatterns, ¬ bad <:+: f.rel) ∧
    (discoverTargetFiles files processed maxFiles).Pairwise
      (fun a b => discoverKeyLe processed a b = true) ∧
    (0 < maxFiles →
      (discoverTargetFiles files processed maxFiles).length ≤ maxFiles.toNat) ∧
    (maxFiles ≤ 0 →
      (discoverTargetFiles files processed maxFiles).length =
        (files.filter (fun f => !excludedPath f.rel && f.size != 0)).length) ∧
    (files = [] → discoverTargetFiles files processed maxFiles = []) := by
  have hmemkept : ∀ f ∈ discoverTargetFiles files processed maxFiles,
      f ∈ files.filter (fun f => !excludedPath f.rel && f.size != 0) := by
    intro f hf
    simp only [discoverTargetFiles] at hf
    split_ifs at hf with h
    · exact (List.mem_mergeSort).mp hf
    · exact (List.mem_mergeSort).mp (List.mem_of_mem_take hf)
  refine ⟨?_, ?_, ?_, ?_, ?_⟩
  · intro f hf
    have h := List.mem_filter.mp (hmemkept f hf)
    have h2 := h.2
    simp only [Bool.and_eq_true, bne_iff_ne, ne_eq, Bool.not_eq_true'] at h2
    refine ⟨h2.2, ?_⟩
    intro bad hbad hinf
    have : excludedPath f.rel = true := by
      simp only [excludedPath, List.any_eq_true]
      exact ⟨bad, hbad, by simpa using hinf⟩
    rw [h2.1] at this
    exact Bool.false_ne_true this
  · have hsorted :
        ((files.filter (fun f => !excludedPath f.rel && f.size != 0)).mergeSort
          (discoverKeyLe processed)).Pairwise
          (fun a b => discoverKeyLe processed a b = true) :=
      List.sorted_mergeSort (discoverKeyLe_trans processed)
        (discoverKeyLe_total processed) _
    simp only [discoverTargetFiles]
    split_ifs with h
    · exact hsorted
    · exact List.Pairwise.sublist (List.take_sublist _ _) hsorted
  · intro hpos
    simp only [discoverTargetFiles]
    rw [if_neg (by omega)]
    exact le_trans (le_of_eq (List.length_take _ _)) (min_le_left _ _)
  · intro hle
    simp only [discoverTargetFiles, if_pos hle]
    exact List.length_mergeSort _
  · rintro rfl
    simp [discoverTargetFiles]

/-- C9 witness: the theorem applied at a concrete input — two candidates of
which the larger is unprocessed, `maxFiles = 1` — discharging the
`0 < maxFiles` hypothesis; the discovery indeed returns at most one file,
and it is the never-processed one. -/
theorem discoverTargetFiles_c9_witness :
    (discoverTargetFiles
      [⟨"src/a.py".toList, 10⟩, ⟨"src/b.py".toList, 5⟩]
      ["src/b.py".toList] 1).length ≤ (1 : Int).toNat ∧
    discoverTargetFiles
      [⟨"src/a.py".toList, 10⟩, ⟨"src/b.py".toList, 5⟩]
      ["src/b.py".toList] 1 = [⟨"src/a.py".toList, 10⟩] := by
  refine ⟨(discoverTargetFiles_c9
    [⟨"src/a.py".toList, 10⟩, ⟨"src/b.py".toList, 5⟩]
    ["src/b.py".toList] 1).2.2.1 (by decide), ?_⟩
  have hkept : List.filter (fun f => !excludedPath f.rel && f.size != 0)
      [(⟨"src/a.py".toList, 10⟩ : FileMeta), ⟨"src/b.py".toList, 5⟩] =
      [⟨"src/a.py".toList, 10⟩, ⟨"src/b.py".toList, 5⟩] := by decide
  simp only [discoverTargetFiles, hkept]
  norm_num [List.mergeSort, List.merge]
  decide

/-!
# Claim C10 — chunk splitting and concatenation reassembly

`chunk_text` is called by `_refactor_chunked_large_function` with
`CHUNK_SIZE = 1000` and `CHUNK_OVERLAP = 100`, giving `step = 900`.  The
following characterizes the loop at those parameters.
-/

/-- One unfolding of the chunk loop at size 1000 / step 900. -/
theorem chunkTextLoop_eq (text : Str) (i : Nat) (h : i < text.length) :
    chunkTextLoop text 1000 900 i =
      if text.length ≤ i + 1000 then [(text.drop i).take 1000]
      else (text.drop i).take 1000 :: chunkTextLoop text 1000 900 (i + 900) := by
  rw [chunkTextLoop]
  simp only [if_pos h]
  norm_num

/-- Full characterization of the chunk loop at size 1000 / step 900:
the result is nonempty; its concatenation has length
`(text.length - i) + 100 * (chunks - 1)`; every chunk has length ≤ 1000;
the k-th chunk is the 1000-slice starting at `i + 900 k`; and every
non-final chunk start leaves more than 1000 characters. -/
theorem chunkTextLoop_spec (text : Str) :
    ∀ fuel i, text.length - i ≤ fuel → i < text.length →
    chunkTextLoop text 1000 900 i ≠ [] ∧
    (chunkTextLoop text 1000 900 i).flatten.length
        = (text.length - i) + 100 * ((chunkTextLoop text 1000 900 i).length - 1) ∧
    (∀ c ∈ chunkTextLoop text 1000 900 i, c.length ≤ 1000) ∧
    (∀ k, k < (chunkTextLoop text 1000 900 i).length →
        (chunkTextLoop text 1000 900 i)[k]? = some ((text.drop (i + 900 * k)).take 1000)) ∧
    (∀ k, k + 1 < (chunkTextLoop text 1000 900 i).length →
        i + 900 * k + 1000 < text.length) := by
  intro fuel
  induction fuel with
  | zero =>
      intro i hfuel hi
      omega
  | succ n ih =>
      intro i hfuel hi
      rw [chunkTextLoop_eq text i hi]
      by_cases hend : text.length ≤ i + 1000
      · simp only [if_pos hend]
        refine ⟨by simp, ?_, ?_, ?_, ?_⟩
        · simp only [List.flatten, List.append_nil, List.length_take,
            List.length_drop, List.length_cons, List.length_nil]
          omega
        · intro c hc
          simp only [List.mem_singleton] at hc
          subst hc
          simp only [List.length_take, List.length_drop]
          omega
        · intro k hk
          simp only [List.length_singleton] at hk
          interval_cases k
          simp
        · intro k hk
          simp only [List.length_singleton] at hk
          omega
      · simp only [if_neg hend]
        obtain ⟨ihne, ihlen, ihbound, ihget, ihfull⟩ := ih (i + 900) (by omega) (by omega)
        have hrestpos : 0 < (chunkTextLoop text 1000 900 (i + 900)).length :=
          List.length_pos.mpr ihne
        refine ⟨by simp, ?_, ?_, ?_, ?_⟩
        · simp only [List.flatten_cons, List.length_append, List.length_take,
            List.length_drop, List.length_cons, ihlen]
          omega
        · intro c hc
          rcases List.mem_cons.mp hc with hc | hc
          · subst hc
            simp only [List.length_take, List.length_drop]
            omega
          · exact ihbound c hc
        · intro k hk
          cases k with
          | zero => simp
          | succ k' =>
              simp only [List.getElem?_cons_succ]
              have hk' : k' < (chunkTextLoop text 1000 900 (i + 900)).length := by
                simp only [List.length_cons] at hk
                omega
              have harith : i + 900 + 900 * k' = i + 900 * (k' + 1) := by ring
              rw [ihget k' hk', harith]
        · intro k hk
          cases k with
          | zero => omega
          | succ k' =>
              have hk' : k' + 1 < (chunkTextLoop text 1000 900 (i + 900)).length := by
                simp only [List.length_cons] at hk
                omega
              have := ihfull k' hk'
              omega

/-- C10: for every function body strictly longer than 1000 characters, the
chunk splitter at `CHUNK_SIZE = 1000`, `CHUNK_OVERLAP = 100` produces at
least two in-order chunks, each of length at most 1000; the last 100
characters of every non-final chunk equal the first 100 characters of the
next chunk (a 100-character shared overlap region); reassembly is the plain
concatenation of the per-chunk results, whose length is the original length
plus 100 for every overlap — so even when every chunk is returned
byte-identical, the reassembled body differs from the original body. -/
theorem chunkText_reassembly_c10 (body : Str) (h : 1000 < body.length) :
    (∀ c ∈ chunkText body CHUNK_SIZE CHUNK_OVERLAP, c.length ≤ 1000) ∧
    2 ≤ (chunkText body CHUNK_SIZE CHUNK_OVERLAP).length ∧
    (∀ k ck ck1, (chunkText body CHUNK_SIZE CHUNK_OVERLAP)[k]? = some ck →
      (chunkText body CHUNK_SIZE CHUNK_OVERLAP)[k + 1]? = some ck1 →
      ck.drop 900 = ck1.take 100 ∧ (ck.drop 900).length = 100) ∧
    reassembleChunks (chunkText body CHUNK_SIZE CHUNK_OVERLAP)
        = (chunkText body CHUNK_SIZE CHUNK_OVERLAP).flatten ∧
    (reassembleChunks (chunkText body CHUNK_SIZE CHUNK_OVERLAP)).length
        = body.length + 100 * ((chunkText body CHUNK_SIZE CHUNK_OVERLAP).length - 1) ∧
    reassembleChunks (chunkText body CHUNK_SIZE CHUNK_OVERLAP) ≠ body := by
  have hne : body ≠ [] := by
    intro hb
    rw [hb] at h
    simp at h
  have hct : chunkText body CHUNK_SIZE CHUNK_OVERLAP = chunkTextLoop body 1000 900 0 := by
    simp [chunkText, CHUNK_SIZE, CHUNK_OVERLAP, hne]
  have hi0 : 0 < body.length := by omega
  obtain ⟨hne0, hlen, hbound, hget, hfull⟩ :=
    chunkTextLoop_spec body body.length 0 (by omega) hi0
  have hlen2 : 2 ≤ (chunkTextLoop body 1000 900 0).length := by
    rw [chunkTextLoop_eq body 0 hi0, if_neg (by omega)]
    have : (chunkTextLoop body 1000 900 (0 + 900)).length ≠ 0 := by
      intro hzero
      exact (chunkTextLoop_spec body body.length 900 (by omega) (by omega)).1
        (List.length_eq_zero.mp (by simpa using hzero))
    simp only [List.length_cons]
    omega
  rw [hct]
  refine ⟨hbound, hlen2, ?_, rfl, ?_, ?_⟩
  · intro k ck ck1 hk hk1
    have hklt : k < (chunkTextLoop body 1000 900 0).length := by
      by_contra hcon
      rw [List.getElem?_eq_none (by omega)] at hk
      exact Option.noConfusion hk
    have hk1lt : k + 1 < (chunkTextLoop body 1000 900 0).length := by
      by_contra hcon
      rw [List.getElem?_eq_none (by omega)] at hk1
      exact Option.noConfusion hk1
    have hck : ck = (body.drop (0 + 900 * k)).take 1000 := by
      have := hget k hklt
      rw [hk] at this
      exact Option.some.inj this
    have hck1 : ck1 = (body.drop (0 + 900 * (k + 1))).take 1000 := by
      have := hget (k + 1) hk1lt
      rw [hk1] at this
      exact Option.some.inj this
    have hfk := hfull k hk1lt
    subst hck hck1
    have e1 : (1000 : Nat) - 900 = 100 := by norm_num
    have e2 : 0 + 900 * k + 900 = 0 + 900 * (k + 1) := by ring
    have e3 : (100 : Nat) ⊓ 1000 = 100 := by norm_num
    constructor
    · rw [List.drop_take, List.drop_drop, e1, e2, List.take_take, e3]
    · rw [List.drop_take, List.drop_drop, e1, e2, List.length_take, List.length_drop]
      omega
  · simpa [reassembleChunks] using hlen
  · intro heq
    have hlenbad := congrArg List.length heq
    simp only [reassembleChunks] at hlenbad
    rw [hlen] at hlenbad
    omega

/-- C10 witness: the theorem applied to a concrete 1001-character body —
the splitter yields two chunks whose concatenation has length 1101 and thus
differs from the body. -/
theorem chunkText_reassembly_c10_witness :
    (reassembleChunks (chunkText (List.replicate 1001 'a') CHUNK_SIZE CHUNK_OVERLAP)).length
        = 1001 + 100 * ((chunkText (List.replicate 1001 'a') CHUNK_SIZE CHUNK_OVERLAP).length - 1) ∧
    reassembleChunks (chunkText (List.replicate 1001 'a') CHUNK_SIZE CHUNK_OVERLAP)
        ≠ List.replicate 1001 'a' := by
  have hrep : (List.replicate 1001 'a' : Str).length = 1001 := List.length_replicate _ _
  have h := chunkText_reassembly_c10 (List.replicate 1001 'a') (by rw [hrep]; omega)
  refine ⟨?_, h.2.2.2.2.2⟩
  rw [h.2.2.2.2.1, hrep]

/-!
## `fers_refactor_planner.py`: `_minimal_autopatch`

String plumbing: `str.splitlines()` (LF model), `"\n".join`, and Python
`sorted(set(...))` on strings.  Python compares strings lexicographically by
code point, which is exactly Mathlib's linear order on `List Char`; on the
deduplicated input every correct sort returns the same list, so the
structurally-recursive `insertionSort` is used (it evaluates by `decide`).
-/

/-- Helper of `splitlines`: `acc` is the current line, reversed. -/
def splitlinesAux : Str → Str → List Str
  | [], acc => if acc.isEmpty then [] else [acc.reverse]
  | c :: cs, acc =>
      if c = '\n' then acc.reverse :: splitlinesAux cs []
      else splitlinesAux cs (c :: acc)

/-- One-step unfolding of `splitlinesAux` on `[]`. -/
theorem splitlinesAux_nil (acc : Str) :
    splitlinesAux [] acc = if acc.isEmpty then [] else [acc.reverse] := rfl

/-- One-step unfolding of `splitlinesAux` on a cons. -/
theorem splitlinesAux_cons (c : Char) (cs acc : Str) :
    splitlinesAux (c :: cs) acc =
      if c = '\n' then acc.reverse :: splitlinesAux cs []
      else splitlinesAux cs (c :: acc) := rfl

/-- Python `str.splitlines()` with LF line breaks: splits on `'\n'`, does
not yield a final empty line for a trailing newline, `[]` on `""`. -/
def splitlines (s : Str) : List Str := splitlinesAux s []

/-- Python `"\n".join(lines)`. -/
def joinlines : List Str → Str
  | [] => []
  | [l] => l
  | l :: l2 :: ls => l ++ '\n' :: joinlines (l2 :: ls)

/-- Python `sorted(set(xs))` on strings: the distinct elements in ascending
lexicographic code-point order. -/
def sortedSet (xs : List Str) : List Str :=
  xs.dedup.insertionSort (fun a b => a ≤ b)

/-- The import-line test of `_minimal_autopatch`:
`l.startswith("import ") or l.startswith("from ")`. -/
def isImportLine (l : Str) : Bool :=
  startsWith "import ".toList l || startsWith "from ".toList l

/-- The docstring header prepended by `_minimal_autopatch`, including its
trailing blank line (the f-string up to the interpolated content). -/
def docstringHeader : Str :=
  "\"\"\"Auto-refactored by ACE/FERS.\nThis module was touched by the evolutionary refactor pipeline.\n\"\"\"\n\n".toList

/-- The lines the docstring header contributes to `splitlines`. -/
def headerLines : List Str :=
  ["\"\"\"Auto-refactored by ACE/FERS.".toList,
    "This module was touched by the evolutionary refactor pipeline.".toList,
    "\"\"\"".toList, []]

/-- A single-quote triple (`'''`), built from code point 39. -/
def tripleSingleQuote : Str := List.replicate 3 (Char.ofNat 39)

/-- The docstring check of `_minimal_autopatch`:
`stripped.startswith('\"\"\"') or stripped.startswith("...")` with the
single-quote triple, on the left-stripped content. -/
def hasDocstringStart (s : Str) : Bool :=
  startsWith "\"\"\"".toList (lstrip s) || startsWith tripleSingleQuote (lstrip s)

/-- Step 3 of `_minimal_autopatch`:
`if not new_content.endswith("\n"): new_content += "\n"`. -/
def ensureNewline (s : Str) : Str :=
  if endsWithNewline s then s else s ++ ['\n']

/-- Step 1 of `_minimal_autopatch`: prepend the docstring header when no
module docstring opener is present. -/
def autopatchBase (content : Str) : Str :=
  if hasDocstringStart content then content else docstringHeader ++ content

/-- Embeds `_minimal_autopatch` (fers_refactor_planner.py), content part:
1) prepend the docstring header when no module docstring opener is present;
2) when any import lines exist, rebuild the file as
   `"\n".join(sorted(set(imports)) + [""] + other_lines)`;
3) ensure a trailing newline. -/
def minimalAutopatch (content : Str) : Str :=
  let c1 := autopatchBase content
  let lines := splitlines c1
  let imports := lines.filter isImportLine
  let other := lines.filter (fun l => !isImportLine l)
  let c2 := if imports.isEmpty then c1 else joinlines (sortedSet imports ++ [[]] ++ other)
  ensureNewline c2

/-- Aspect "exactly one trailing newline" of the C5 claim: the content ends
with a newline and the character before it (if any) is not a newline. -/
def endsWithExactlyOneNewline (s : Str) : Bool :=
  endsWithNewline s && !endsWithNewline s.dropLast

/-- The import lines of a content string (aspect "deduplicated
alphabetically-sorted hoisted imports" of the C5 claim). -/
def importLines (s : Str) : List Str := (splitlines s).filter isImportLine

/-!
Basic facts about `splitlines`/`joinlines`.
-/

/-- Lines produced by `splitlinesAux` contain no newline. -/
theorem splitlinesAux_no_newline :
    ∀ (s acc : Str), '\n' ∉ acc → ∀ l ∈ splitlinesAux s acc, '\n' ∉ l := by
  intro s
  induction s with
  | nil =>
      intro acc hacc l hl
      simp only [splitlinesAux] at hl
      split_ifs at hl with he
      · simp at hl
      · simp only [List.mem_singleton] at hl
        subst hl
        simpa using hacc
  | cons c cs ih =>
      intro acc hacc l hl
      simp only [splitlinesAux] at hl
      split_ifs at hl with hc
      · rcases List.mem_cons.mp hl with hl | hl
        · subst hl
          simpa using hacc
        · exact ih [] (by simp) l hl
      · exact ih (c :: acc) (by simp [hacc, Ne.symm hc]) l hl

/-- Lines produced by `splitlines` contain no newline. -/
theorem splitlines_no_newline (s : Str) : ∀ l ∈ splitlines s, '\n' ∉ l :=
  splitlinesAux_no_newline s [] (by simp)

/-- Flushing `splitlinesAux` on newline-free input. -/
theorem splitlinesAux_flush :
    ∀ (s acc : Str), '\n' ∉ s →
      splitlinesAux s acc =
        if acc.reverse ++ s = [] then [] else [acc.reverse ++ s] := by
  intro s
  induction s with
  | nil =>
      intro acc _
      simp [splitlinesAux, List.isEmpty_iff]
  | cons c cs ih =>
      intro acc hs
      have hc : ¬ c = '\n' := by
        intro hc
        exact hs (hc ▸ List.mem_cons_self c cs)
      have hcs : '\n' ∉ cs := fun h => hs (List.mem_cons_of_mem c h)
      simp only [splitlinesAux, if_neg hc]
      rw [ih (c :: acc) hcs]
      simp

/-- `splitlines` of a newline-free nonempty string is that single line. -/
theorem splitlines_single (s : Str) (hnl : '\n' ∉ s) (hne : s ≠ []) :
    splitlines s = [s] := by
  rw [splitlines, splitlinesAux_flush s [] hnl]
  simp [hne]

/-- Splitting at the first newline (newline-free head). -/
theorem splitlinesAux_break :
    ∀ (s acc rest : Str), '\n' ∉ s →
      splitlinesAux (s ++ '\n' :: rest) acc =
        (acc.reverse ++ s) :: splitlinesAux rest [] := by
  intro s
  induction s with
  | nil =>
      intro acc rest _
      simp [splitlinesAux]
  | cons c cs ih =>
      intro acc rest hs
      have hc : ¬ c = '\n' := by
        intro hc
        exact hs (hc ▸ List.mem_cons_self c cs)
      have hcs : '\n' ∉ cs := fun h => hs (List.mem_cons_of_mem c h)
      rw [List.cons_append, splitlinesAux_cons, if_neg hc, ih (c :: acc) rest hcs]
      simp

/-- `splitlines (s ++ "\n" ++ rest) = s :: splitlines rest` for a
newline-free `s`. -/
theorem splitlines_append_break (s rest : Str) (hnl : '\n' ∉ s) :
    splitlines (s ++ '\n' :: rest) = s :: splitlines rest := by
  rw [splitlines, splitlinesAux_break s [] rest hnl]
  simp [splitlines]

/-- `splitlines` drops a single trailing newline appended to a string that
does not already end in one. -/
theorem splitlinesAux_trailing :
    ∀ (s acc : Str), (s = [] → acc ≠ []) → s.getLast? ≠ some '\n' →
      splitlinesAux (s ++ ['\n']) acc = splitlinesAux s acc := by
  intro s
  induction s with
  | nil =>
      intro acc hacc _
      have : ¬ acc.isEmpty := by
        simp [List.isEmpty_iff, hacc rfl]
      simp [splitlinesAux, this]
  | cons c cs ih =>
      intro acc _ hlast
      by_cases hc : c = '\n'
      · subst hc
        have hcs : cs ≠ [] := by
          intro h
          subst h
          simp at hlast
        obtain ⟨d, ds, rfl⟩ := List.exists_cons_of_ne_nil hcs
        have hlast' : (d :: ds).getLast? ≠ some '\n' := by
          rwa [List.getLast?_cons_cons] at hlast
        rw [List.cons_append, splitlinesAux_cons, splitlinesAux_cons, if_pos rfl, if_pos rfl,
          ih [] (by simp) hlast']
      · rw [List.cons_append, splitlinesAux_cons, splitlinesAux_cons, if_neg hc, if_neg hc]
        have hcs : cs = [] → c :: acc ≠ [] := by
          intro _
          simp
        have hlast' : cs.getLast? ≠ some '\n' := by
          cases hcs2 : cs with
          | nil => simp
          | cons d ds =>
              rw [hcs2] at hlast
              rwa [List.getLast?_cons_cons] at hlast
        exact ih (c :: acc) hcs hlast'

/-- `splitlines ('\n' :: y) = "" :: splitlines y`. -/
theorem splitlines_cons_newline (y : Str) :
    splitlines ('\n' :: y) = [] :: splitlines y := by
  simp [splitlines, splitlinesAux]

/-- `joinlines` over a cons with nonempty tail. -/
theorem joinlines_cons (a : Str) (M : List Str) (hM : M ≠ []) :
    joinlines (a :: M) = a ++ '\n' :: joinlines M := by
  cases M with
  | nil => exact absurd rfl hM
  | cons b t => rfl

/-- Splitting the join of nonempty newline-free lines plus a final
newline recovers the lines. -/
theorem splitlines_joinlines (M : List Str) (hM : M ≠ [])
    (hnl : ∀ l ∈ M, '\n' ∉ l) :
    splitlines (joinlines M ++ ['\n']) = M := by
  induction M with
  | nil => exact absurd rfl hM
  | cons a M ih =>
      cases M with
      | nil =>
          show splitlines (a ++ '\n' :: []) = [a]
          rw [splitlines_append_break a [] (hnl a (by simp))]
          rfl
      | cons b t =>
          rw [joinlines_cons a (b :: t) (by simp), List.append_assoc, List.cons_append,
            splitlines_append_break a _ (hnl a (by simp)),
            ih (by simp) (fun l hl => hnl l (List.mem_cons_of_mem a hl))]

/-- `joinlines` over an appended final line. -/
theorem joinlines_concat (M : List Str) (a : Str) (hM : M ≠ []) :
    joinlines (M ++ [a]) = joinlines M ++ '\n' :: a := by
  induction M with
  | nil => exact absurd rfl hM
  | cons b M ih =>
      cases M with
      | nil => rfl
      | cons c t =>
          rw [List.cons_append, joinlines_cons b ((c :: t) ++ [a]) (by simp),
            ih (by simp), joinlines_cons b (c :: t) (by simp)]
          simp

/-- A string ending in an explicit newline satisfies `endsWithNewline`. -/
theorem endsWithNewline_concat_newline (w : Str) :
    endsWithNewline (w ++ ['\n']) = true := by
  simp [endsWithNewline, List.getLast?_append]

/-- A string whose final segment is nonempty and newline-free does not end
with a newline. -/
theorem endsWithNewline_eq_false (w a : Str) (ha : a ≠ []) (hnl : '\n' ∉ a) :
    endsWithNewline (w ++ a) = false := by
  obtain ⟨c, hc⟩ : ∃ c, a.getLast? = some c := by
    cases hgl : a.getLast? with
    | none => exact absurd (List.getLast?_eq_none_iff.mp hgl) ha
    | some c => exact ⟨c, rfl⟩
  have hmem : c ∈ a := by
    obtain ⟨ys, hys⟩ := List.getLast?_eq_some_iff.mp hc
    rw [hys]
    simp
  have hcne : c ≠ '\n' := fun h => hnl (h ▸ hmem)
  have : (w ++ a).getLast? = some c := by
    rw [List.getLast?_append, hc]
    rfl
  simp [endsWithNewline, this, hcne]

/-- `ensureNewline` output always ends with a newline. -/
theorem ensureNewline_ends (s : Str) : endsWithNewline (ensureNewline s) = true := by
  by_cases h : endsWithNewline s = true
  · simp [ensureNewline, h]
  · simp only [ensureNewline]
    rw [if_neg (by simp [h])]
    exact endsWithNewline_concat_newline s

/-- `ensureNewline` is idempotent. -/
theorem ensureNewline_idem (s : Str) : ensureNewline (ensureNewline s) = ensureNewline s := by
  conv_lhs => rw [ensureNewline]
  simp [ensureNewline_ends s]

/-- `splitlines` is unchanged by `ensureNewline` on nonempty input. -/
theorem splitlines_ensureNewline (s : Str) (hs : s ≠ []) :
    splitlines (ensureNewline s) = splitlines s := by
  by_cases h : endsWithNewline s = true
  · simp [ensureNewline, h]
  · simp only [ensureNewline]
    rw [if_neg (by simp [h])]
    have hlast : s.getLast? ≠ some '\n' := by
      simp only [endsWithNewline, beq_iff_eq] at h
      exact h
    exact splitlinesAux_trailing s [] (fun he => absurd he hs) hlast

/-- Membership in `sortedSet`. -/
theorem mem_sortedSet {xs : List Str} {a : Str} : a ∈ sortedSet xs ↔ a ∈ xs := by
  rw [sortedSet, (List.perm_insertionSort _ _).mem_iff, List.mem_dedup]

/-- `sortedSet` of a nonempty list is nonempty. -/
theorem sortedSet_ne_nil {xs : List Str} (hx : xs ≠ []) : sortedSet xs ≠ [] := by
  obtain ⟨a, ha⟩ := List.exists_mem_of_ne_nil xs hx
  exact List.ne_nil_of_mem (mem_sortedSet.mpr ha)

/-- `sortedSet` output is sorted. -/
theorem sortedSet_sorted (xs : List Str) : (sortedSet xs).Sorted (fun a b => a ≤ b) :=
  List.sorted_insertionSort _ _

/-- `sortedSet` output has no duplicates. -/
theorem sortedSet_nodup (xs : List Str) : (sortedSet xs).Nodup :=
  ((List.perm_insertionSort _ _).nodup_iff).mpr (List.nodup_dedup xs)

/-- `sortedSet` is idempotent. -/
theorem sortedSet_idem (xs : List Str) : sortedSet (sortedSet xs) = sortedSet xs := by
  rw [sortedSet, List.dedup_eq_self.mpr (sortedSet_nodup xs)]
  exact List.Sorted.insertionSort_eq (sortedSet_sorted xs)

/-- Analysis helper: the line list after `splitlines ∘ "\n".join ∘ (· ++ "\n")`
round-trip — one trailing empty line (if any) is absorbed by the final
newline. -/
def stripOneEmpty (D : List Str) : List Str :=
  if D.getLast? = some ([] : Str) then D.dropLast else D

/-- Elements of `stripOneEmpty D` are elements of `D`. -/
theorem stripOneEmpty_subset (D : List Str) : ∀ l ∈ stripOneEmpty D, l ∈ D := by
  intro l hl
  simp only [stripOneEmpty] at hl
  split_ifs at hl
  · exact List.dropLast_subset D hl
  · exact hl

/-- Whether a nonempty-headed line list's join ends in a newline: exactly
when the final line is empty. -/
theorem endsWithNewline_joinlines (si E : List Str) (hsi : si ≠ [])
    (hsiNe : ∀ l ∈ si, l ≠ []) (hsiNl : ∀ l ∈ si, '\n' ∉ l)
    (hENl : ∀ l ∈ E, '\n' ∉ l) :
    endsWithNewline (joinlines (si ++ E)) = decide (E.getLast? = some ([] : Str)) := by
  rcases List.eq_nil_or_concat E with hE | ⟨ys, a, hEa⟩
  · subst hE
    rcases List.eq_nil_or_concat si with hs | ⟨zs, b, hsb⟩
    · exact absurd hs hsi
    · rw [List.concat_eq_append] at hsb
      subst hsb
      rw [List.append_nil]
      have hbne : b ≠ [] := hsiNe b (by simp)
      have hbnl : '\n' ∉ b := hsiNl b (by simp)
      rcases List.eq_nil_or_concat zs with hz | ⟨ws, c, hwc⟩
      · subst hz
        have hj : joinlines ([] ++ [b]) = [] ++ b := by simp [joinlines]
        rw [hj, endsWithNewline_eq_false [] b hbne hbnl]
        simp
      · rw [List.concat_eq_append] at hwc
        subst hwc
        rw [joinlines_concat _ b (by simp)]
        have hrw : joinlines (ws ++ [c]) ++ '\n' :: b =
            (joinlines (ws ++ [c]) ++ ['\n']) ++ b := by
          simp
        rw [hrw, endsWithNewline_eq_false _ b hbne hbnl]
        simp
  · rw [List.concat_eq_append] at hEa
    subst hEa
    have hane : si ++ (ys ++ [a]) = (si ++ ys) ++ [a] := by simp
    rw [hane, joinlines_concat _ a (by simp [hsi])]
    by_cases ha : a = ([] : Str)
    · subst ha
      have hrw : joinlines (si ++ ys) ++ '\n' :: ([] : Str) =
          joinlines (si ++ ys) ++ ['\n'] := rfl
      rw [hrw, endsWithNewline_concat_newline]
      simp
    · have hanl : '\n' ∉ a := hENl a (by simp)
      have hrw : joinlines (si ++ ys) ++ '\n' :: a =
          (joinlines (si ++ ys) ++ ['\n']) ++ a := by
        simp
      rw [hrw, endsWithNewline_eq_false _ a ha hanl]
      have hgl : (ys ++ [a]).getLast? = some a := by simp
      simp [hgl, ha]

/-- Core rewrite lemma: `ensureNewline (joinlines (si ++ D))` is the join of
`si ++ stripOneEmpty D` plus a final newline, and `splitlines` recovers
exactly `si ++ stripOneEmpty D`. -/
theorem coreSplit (si D : List Str) (hsi : si ≠ []) (hD : D ≠ [])
    (hsiNl : ∀ l ∈ si, '\n' ∉ l) (hsiNe : ∀ l ∈ si, l ≠ [])
    (hDNl : ∀ l ∈ D, '\n' ∉ l) :
    ensureNewline (joinlines (si ++ D)) = joinlines (si ++ stripOneEmpty D) ++ ['\n'] ∧
    splitlines (ensureNewline (joinlines (si ++ D))) = si ++ stripOneEmpty D := by
  have hallNl : ∀ l ∈ si ++ stripOneEmpty D, '\n' ∉ l := by
    intro l hl
    rcases List.mem_append.mp hl with hl | hl
    · exact hsiNl l hl
    · exact hDNl l (stripOneEmpty_subset D l hl)
  have hne2 : si ++ stripOneEmpty D ≠ [] := by
    simp [hsi]
  have hends : endsWithNewline (joinlines (si ++ D)) =
      decide (D.getLast? = some ([] : Str)) :=
    endsWithNewline_joinlines si D hsi hsiNe hsiNl hDNl
  by_cases h : D.getLast? = some ([] : Str)
  · have hg : D.getLast hD = [] := by
      have h2 := List.getLast?_eq_getLast D hD
      rw [h2] at h
      exact Option.some.inj h
    have hDdecomp : D.dropLast ++ [([] : Str)] = D := by
      rw [← hg]
      exact List.dropLast_append_getLast hD
    have hstrip : stripOneEmpty D = D.dropLast := by
      simp [stripOneEmpty, h]
    have hjoin : joinlines (si ++ D) = joinlines (si ++ D.dropLast) ++ ['\n'] := by
      conv_lhs => rw [← hDdecomp]
      rw [← List.append_assoc, joinlines_concat _ _ (by simp [hsi])]
    have hendsT : endsWithNewline (joinlines (si ++ D)) = true := by
      rw [hends]
      simp [h]
    have heq : ensureNewline (joinlines (si ++ D)) =
        joinlines (si ++ stripOneEmpty D) ++ ['\n'] := by
      simp only [ensureNewline]
      rw [if_pos (by simp [hendsT]), hjoin, hstrip]
    refine ⟨heq, ?_⟩
    rw [heq]
    exact splitlines_joinlines _ hne2 hallNl
  · have hstrip : stripOneEmpty D = D := by
      simp [stripOneEmpty, h]
    have hendsF : endsWithNewline (joinlines (si ++ D)) = false := by
      rw [hends]
      simp [h]
    have heq : ensureNewline (joinlines (si ++ D)) =
        joinlines (si ++ stripOneEmpty D) ++ ['\n'] := by
      simp only [ensureNewline]
      rw [if_neg (by simp [hendsF]), hstrip]
    refine ⟨heq, ?_⟩
    rw [heq]
    exact splitlines_joinlines _ hne2 hallNl

/-- The head of a nonempty-headed join. -/
theorem joinlines_head (a : Str) (M : List Str) (ha : a ≠ []) :
    (joinlines (a :: M)).head? = a.head? := by
  cases M with
  | nil => rfl
  | cons b t =>
      rw [joinlines_cons a (b :: t) (by simp)]
      exact List.head?_append_of_ne_nil a ha

/-- A true `startsWith` determines the head of the string. -/
theorem head?_of_startsWith (p s : Str) (h : startsWith p s = true) (hp : p ≠ []) :
    s.head? = p.head? := by
  obtain ⟨t, rfl⟩ := List.isPrefixOf_iff_prefix.mp h
  exact List.head?_append_of_ne_nil p hp

/-- An import line is nonempty and starts with `i` or `f`. -/
theorem importLine_head (l : Str) (h : isImportLine l = true) :
    l ≠ [] ∧ (l.head? = some 'i' ∨ l.head? = some 'f') := by
  rcases Bool.or_eq_true_iff.mp h with h1 | h1
  all_goals {
    first
      | (have hh := head?_of_startsWith _ l h1 (by decide)
         refine ⟨?_, ?_⟩
         · intro he
           subst he
           simp at hh
         · first
            | exact Or.inl hh
            | exact Or.inr hh)
  }

/-- `hasDocstringStart` is false for a string whose first character is
neither whitespace nor a quote. -/
theorem hasDocstringStart_false_of_head (s : Str) (c : Char) (hc : s.head? = some c)
    (h1 : isPySpace c = false) (h2 : c ≠ '"') (h3 : c ≠ Char.ofNat 39) :
    hasDocstringStart s = false := by
  obtain ⟨t, rfl⟩ : ∃ t, s = c :: t := by
    cases s with
    | nil => simp at hc
    | cons d t =>
        simp only [List.head?_cons, Option.some.injEq] at hc
        exact ⟨t, by rw [hc]⟩
  have hl : lstrip (c :: t) = c :: t := by
    simp [lstrip, List.dropWhile_cons, h1]
  simp only [hasDocstringStart, hl]
  have hq1 : startsWith "\"\"\"".toList (c :: t) = false := by
    simp only [startsWith]
    rw [Bool.eq_false_iff]
    intro hcon
    rcases List.isPrefixOf_iff_prefix.mp hcon with ⟨u, hu⟩
    have := congrArg List.head? hu
    simp at this
    exact h2 this.symm
  have hq2 : startsWith tripleSingleQuote (c :: t) = false := by
    simp only [startsWith]
    rw [Bool.eq_false_iff]
    intro hcon
    rcases List.isPrefixOf_iff_prefix.mp hcon with ⟨u, hu⟩
    have := congrArg List.head? hu
    simp [tripleSingleQuote] at this
    exact h3 this.symm
  rw [hq1, hq2]
  rfl

/-- A `startsWith` survives extending the string on the right. -/
theorem startsWith_append (p t u : Str) (h : startsWith p t = true) :
    startsWith p (t ++ u) = true :=
  List.isPrefixOf_iff_prefix.mpr
    ((List.isPrefixOf_iff_prefix.mp h).trans (List.prefix_append t u))

/-- The base content of the autopatch always passes the docstring check. -/
theorem hasDocstringStart_autopatchBase (x : Str) :
    hasDocstringStart (autopatchBase x) = true := by
  by_cases h : hasDocstringStart x = true
  · simp [autopatchBase, h]
  · simp only [autopatchBase]
    rw [if_neg (by simp [h])]
    have hdec : docstringHeader ++ x =
        '"' :: ("\"\"Auto-refactored by ACE/FERS.\nThis module was touched by the evolutionary refactor pipeline.\n\"\"\"\n\n".toList ++ x) := rfl
    have hsp : isPySpace '"' = false := by decide
    have hl : lstrip (docstringHeader ++ x) = docstringHeader ++ x := by
      rw [hdec, lstrip, List.dropWhile_cons, hsp]
      simp
    have h2 : startsWith "\"\"\"".toList (docstringHeader ++ x) = true := by
      rw [show docstringHeader ++ x =
        "\"\"\"".toList ++ ("Auto-refactored by ACE/FERS.\nThis module was touched by the evolutionary refactor pipeline.\n\"\"\"\n\n".toList ++ x) from rfl]
      exact startsWith_append _ _ _ (by decide)
    rw [hasDocstringStart, hl, h2]
    rfl

/-- `lstrip` of a string with a true `hasDocstringStart` is nonempty. -/
theorem lstrip_ne_nil_of_hasDocstringStart (s : Str) (h : hasDocstringStart s = true) :
    lstrip s ≠ [] := by
  intro h0
  rw [hasDocstringStart, h0] at h
  simp [startsWith, tripleSingleQuote] at h

/-- The docstring check survives `ensureNewline`. -/
theorem hasDocstringStart_ensureNewline (s : Str) (h : hasDocstringStart s = true) :
    hasDocstringStart (ensureNewline s) = true := by
  by_cases he : endsWithNewline s = true
  · simp [ensureNewline, he, h]
  · simp only [ensureNewline]
    rw [if_neg (by simp [he])]
    have hlne : lstrip s ≠ [] := lstrip_ne_nil_of_hasDocstringStart s h
    have hls : lstrip (s ++ ['\n']) = lstrip s ++ ['\n'] := by
      rw [lstrip, List.dropWhile_append, if_neg (by rw [List.isEmpty_iff]; exact hlne)]
      rfl
    rw [hasDocstringStart, hls]
    rcases Bool.or_eq_true_iff.mp h with h1 | h1
    · rw [startsWith_append _ _ _ h1]
      rfl
    · rw [startsWith_append _ _ _ h1]
      simp

/-- The base content of the autopatch is never empty. -/
theorem autopatchBase_ne_nil (x : Str) : autopatchBase x ≠ [] := by
  by_cases h : hasDocstringStart x = true
  · have hx : x ≠ [] := by
      intro hx0
      subst hx0
      have := lstrip_ne_nil_of_hasDocstringStart [] h
      simp [lstrip] at this
    simpa [autopatchBase, h] using hx
  · simp only [autopatchBase]
    rw [if_neg (by simp [h])]
    simp [docstringHeader]

/-- `splitlines` of the docstring header prepended to any content. -/
theorem splitlines_header_append (y : Str) :
    splitlines (docstringHeader ++ y) = headerLines ++ splitlines y := by
  have hdecomp : docstringHeader ++ y =
      "\"\"\"Auto-refactored by ACE/FERS.".toList ++ '\n' ::
        ("This module was touched by the evolutionary refactor pipeline.".toList ++ '\n' ::
          ("\"\"\"".toList ++ '\n' :: ('\n' :: y))) := rfl
  rw [hdecomp, splitlines_append_break _ _ (by decide),
    splitlines_append_break _ _ (by decide), splitlines_append_break _ _ (by decide),
    splitlines_cons_newline]
  rfl

/-- `endsWithExactlyOneNewline` after adding a final newline is the negation
of already ending in one. -/
theorem exactlyOneNewline_concat (w : Str) :
    endsWithExactlyOneNewline (w ++ ['\n']) = !endsWithNewline w := by
  simp [endsWithExactlyOneNewline, endsWithNewline_concat_newline, List.dropLast_concat]

/-- `takeWhile` passes through an all-true block. -/
theorem takeWhile_all_true_append {p : Str → Bool} (si E : List Str)
    (h : ∀ l ∈ si, p l = true) :
    (si ++ E).takeWhile p = si ++ E.takeWhile p := by
  induction si with
  | nil => simp
  | cons a t ih =>
      rw [List.cons_append, List.takeWhile_cons, if_pos (h a (by simp)),
        ih (fun l hl => h l (List.mem_cons_of_mem a hl))]
      rfl

/-- `takeWhile` on a list of all-false elements is empty. -/
theorem takeWhile_all_false {p : Str → Bool} (E : List Str)
    (h : ∀ l ∈ E, p l = false) : E.takeWhile p = [] := by
  cases E with
  | nil => rfl
  | cons a t => rw [List.takeWhile_cons, if_neg (by simp [h a (by simp)])]

/-- `_minimal_autopatch` when the base content has no import lines:
only the docstring/trailing-newline steps act. -/
theorem minimalAutopatch_of_no_imports (x : Str)
    (h : (splitlines (autopatchBase x)).filter isImportLine = []) :
    minimalAutopatch x = ensureNewline (autopatchBase x) := by
  simp [minimalAutopatch, h]

/-- `_minimal_autopatch` when the base content has import lines:
the file is rebuilt from the sorted import set, a blank line, and the
remaining lines. -/
theorem minimalAutopatch_of_imports (x : Str)
    (h : (splitlines (autopatchBase x)).filter isImportLine ≠ []) :
    minimalAutopatch x =
      ensureNewline (joinlines
        (sortedSet ((splitlines (autopatchBase x)).filter isImportLine) ++ [[]] ++
          (splitlines (autopatchBase x)).filter (fun l => !isImportLine l))) := by
  simp [minimalAutopatch, List.isEmpty_iff, h]

/-!
# Claim C5 — second application of the minimal autopatch
-/

/-- The input of the C5 counterexample: a docstring, one import, code, and
two trailing blank lines. -/
def c5Input : Str := "\"\"\"d\"\"\"\nimport a\nx = 1\n\n\n".toList

/-- C5 counterexample: the second application of `_minimal_autopatch` does
change one of the three claimed aspects at a concrete input — the first
application's output ends with *two* trailing newlines (the exactly-one
invariant is violated), while the second application's output ends with
exactly one, so the trailing-newline aspect differs between the first and
second outputs. -/
theorem minimalAutopatch_c5_counterexample :
    endsWithExactlyOneNewline (minimalAutopatch c5Input) = false ∧
    endsWithExactlyOneNewline (minimalAutopatch (minimalAutopatch c5Input)) = true := by
  constructor <;> decide

/-- C5 (amended): the second application of the deterministic local
fallback preserves module-docstring presence exactly (the presence flag of
the second output equals that of the first), keeps the import-line list
identical (and that list is alphabetically sorted, deduplicated, and
hoisted: it is the leading block of the first output's lines), and
preserves the exactly-one-trailing-newline property when it holds of the
first output (the property can change only from violated to satisfied, as
the counterexample shows, never from satisfied to violated). -/
theorem minimalAutopatch_c5 (x : Str) :
    hasDocstringStart (minimalAutopatch (minimalAutopatch x))
        = hasDocstringStart (minimalAutopatch x) ∧
    importLines (minimalAutopatch (minimalAutopatch x)) = importLines (minimalAutopatch x) ∧
    (importLines (minimalAutopatch x)).Sorted (fun a b => a ≤ b) ∧
    (importLines (minimalAutopatch x)).Nodup ∧
    (splitlines (minimalAutopatch x)).takeWhile isImportLine
        = importLines (minimalAutopatch x) ∧
    (endsWithExactlyOneNewline (minimalAutopatch x) = true →
      endsWithExactlyOneNewline (minimalAutopatch (minimalAutopatch x)) = true) := by
  by_cases himp : (splitlines (autopatchBase x)).filter isImportLine = []
  · -- no import lines: the second application is the identity
    have hfx := minimalAutopatch_of_no_imports x himp
    have hdoc2 : hasDocstringStart (minimalAutopatch x) = true := by
      rw [hfx]
      exact hasDocstringStart_ensureNewline _ (hasDocstringStart_autopatchBase x)
    have hlines : splitlines (minimalAutopatch x) = splitlines (autopatchBase x) := by
      rw [hfx]
      exact splitlines_ensureNewline _ (autopatchBase_ne_nil x)
    have hbase2 : autopatchBase (minimalAutopatch x) = minimalAutopatch x := by
      simp [autopatchBase, hdoc2]
    have himp2 : (splitlines (autopatchBase (minimalAutopatch x))).filter isImportLine = [] := by
      rw [hbase2, hlines]
      exact himp
    have hffx : minimalAutopatch (minimalAutopatch x) = minimalAutopatch x := by
      rw [minimalAutopatch_of_no_imports _ himp2, hbase2, hfx, ensureNewline_idem]
    have hil : importLines (minimalAutopatch x) = [] := by
      rw [importLines, hlines]
      exact himp
    refine ⟨by rw [hffx], by rw [hffx], ?_, ?_, ?_, ?_⟩
    · rw [hil]
      exact List.sorted_nil
    · rw [hil]
      exact List.nodup_nil
    · rw [hil, hlines]
      apply takeWhile_all_false
      intro l hl
      have := List.filter_eq_nil_iff.mp himp l hl
      simpa using this
    · intro h
      rw [hffx]
      exact h
  · -- import lines exist: both applications rebuild the file
    set ii := (splitlines (autopatchBase x)).filter isImportLine with hii
    set oo := (splitlines (autopatchBase x)).filter (fun l => !isImportLine l) with hoo
    set si := sortedSet ii with hsi
    have hfx := minimalAutopatch_of_imports x himp
    have hfx' : minimalAutopatch x = ensureNewline (joinlines (si ++ ([[]] ++ oo))) := by
      rw [hfx, List.append_assoc]
    have hsiNe : si ≠ [] := sortedSet_ne_nil himp
    have hsiImp : ∀ l ∈ si, isImportLine l = true := fun l hl =>
      (List.mem_filter.mp (mem_sortedSet.mp hl)).2
    have hsiNl : ∀ l ∈ si, '\n' ∉ l := fun l hl =>
      splitlines_no_newline _ l (List.mem_filter.mp (mem_sortedSet.mp hl)).1
    have hsiNonempty : ∀ l ∈ si, l ≠ [] := fun l hl => (importLine_head l (hsiImp l hl)).1
    have hDne : ([[]] ++ oo : List Str) ≠ [] := by simp
    have hDNl : ∀ l ∈ ([[]] ++ oo : List Str), '\n' ∉ l := by
      intro l hl
      rcases List.mem_append.mp hl with h0 | h0
      · simp only [List.mem_singleton] at h0
        subst h0
        simp
      · exact splitlines_no_newline _ l (List.mem_filter.mp h0).1
    obtain ⟨hfxEq, hfxSplit⟩ := coreSplit si ([[]] ++ oo) hsiNe hDne hsiNl hsiNonempty hDNl
    set E := stripOneEmpty ([[]] ++ oo) with hE
    have hEsub : ∀ l ∈ E, l ∈ ([[]] ++ oo : List Str) := stripOneEmpty_subset _
    have hENoImp : ∀ l ∈ E, isImportLine l = false := by
      intro l hl
      rcases List.mem_append.mp (hEsub l hl) with h0 | h0
      · simp only [List.mem_singleton] at h0
        subst h0
        decide
      · have := (List.mem_filter.mp h0).2
        simpa using this
    have hENl : ∀ l ∈ E, '\n' ∉ l := fun l hl => hDNl l (hEsub l hl)
    have hfxJoin : minimalAutopatch x = joinlines (si ++ E) ++ ['\n'] := by
      rw [hfx', hfxEq]
    have hfxLines : splitlines (minimalAutopatch x) = si ++ E := by
      rw [hfx']
      exact hfxSplit
    have hfilterSi : (si ++ E).filter isImportLine = si := by
      rw [List.filter_append, List.filter_eq_self.mpr hsiImp,
        List.filter_eq_nil_iff.mpr (fun a ha => by simp [hENoImp a ha])]
      simp
    have hImpFx : importLines (minimalAutopatch x) = si := by
      rw [importLines, hfxLines, hfilterSi]
    obtain ⟨s₀, si', hs0⟩ := List.exists_cons_of_ne_nil hsiNe
    have hs0mem : s₀ ∈ si := by
      rw [hs0]
      simp
    have hs0imp := importLine_head s₀ (hsiImp s₀ hs0mem)
    obtain ⟨c0, hc0⟩ : ∃ c, s₀.head? = some c := by
      rcases hs0imp.2 with hc | hc
      · exact ⟨_, hc⟩
      · exact ⟨_, hc⟩
    have hc0props : isPySpace c0 = false ∧ c0 ≠ '"' ∧ c0 ≠ Char.ofNat 39 := by
      have : c0 = 'i' ∨ c0 = 'f' := by
        rcases hs0imp.2 with h0 | h0 <;> rw [hc0] at h0
        · exact Or.inl (Option.some.inj h0)
        · exact Or.inr (Option.some.inj h0)
      rcases this with rfl | rfl
      · exact ⟨by decide, by decide, by decide⟩
      · exact ⟨by decide, by decide, by decide⟩
    have headerHead : ∀ (E' : List Str), (∀ l ∈ E', '\n' ∉ l) →
        (joinlines (si ++ E') ++ ['\n']).head? = s₀.head? := by
      intro E' _
      rw [hs0, List.cons_append]
      have hh := joinlines_head s₀ (si' ++ E') hs0imp.1
      have hjoinne : joinlines (s₀ :: (si' ++ E')) ≠ [] := by
        intro h0
        rw [h0] at hh
        rw [hc0] at hh
        simp at hh
      rw [List.head?_append_of_ne_nil _ hjoinne, hh]
    have hA1fx : hasDocstringStart (minimalAutopatch x) = false := by
      refine hasDocstringStart_false_of_head _ c0 ?_ hc0props.1 hc0props.2.1 hc0props.2.2
      rw [hfxJoin, headerHead E hENl, hc0]
    have hbase2 : autopatchBase (minimalAutopatch x)
        = docstringHeader ++ minimalAutopatch x := by
      simp [autopatchBase, hA1fx]
    have hlines2 : splitlines (autopatchBase (minimalAutopatch x))
        = headerLines ++ (si ++ E) := by
      rw [hbase2, splitlines_header_append, hfxLines]
    have hhdrNoImp : ∀ l ∈ headerLines, isImportLine l = false := by decide
    have hfilter2 : (splitlines (autopatchBase (minimalAutopatch x))).filter isImportLine
        = si := by
      rw [hlines2, List.filter_append,
        List.filter_eq_nil_iff.mpr (fun a ha => by simp [hhdrNoImp a ha]), hfilterSi]
      simp
    have himp2 : (splitlines (autopatchBase (minimalAutopatch x))).filter isImportLine
        ≠ [] := by
      rw [hfilter2]
      exact hsiNe
    have hoo2 : (splitlines (autopatchBase (minimalAutopatch x))).filter
        (fun l => !isImportLine l) = headerLines ++ E := by
      rw [hlines2, List.filter_append, List.filter_append,
        List.filter_eq_self.mpr (fun a ha => by simp [hhdrNoImp a ha]),
        List.filter_eq_nil_iff.mpr (fun a ha => by simp [hsiImp a ha]),
        List.filter_eq_self.mpr (fun a ha => by simp [hENoImp a ha])]
      simp
    have hsortedSi : sortedSet si = si := by
      rw [hsi, sortedSet_idem]
    have hfy := minimalAutopatch_of_imports (minimalAutopatch x) himp2
    have hfy' : minimalAutopatch (minimalAutopatch x)
        = ensureNewline (joinlines (si ++ ([[]] ++ (headerLines ++ E)))) := by
      rw [hfy, hfilter2, hoo2, hsortedSi, List.append_assoc]
    have hD2ne : ([[]] ++ (headerLines ++ E) : List Str) ≠ [] := by simp
    have hhdrNl : ∀ l ∈ headerLines, '\n' ∉ l := by decide
    have hD2Nl : ∀ l ∈ ([[]] ++ (headerLines ++ E) : List Str), '\n' ∉ l := by
      intro l hl
      rcases List.mem_append.mp hl with h0 | h0
      · simp only [List.mem_singleton] at h0
        subst h0
        simp
      · rcases List.mem_append.mp h0 with h0 | h0
        · exact hhdrNl l h0
        · exact hENl l h0
    obtain ⟨hfyEq, hfySplit⟩ :=
      coreSplit si ([[]] ++ (headerLines ++ E)) hsiNe hD2ne hsiNl hsiNonempty hD2Nl
    set E2 := stripOneEmpty ([[]] ++ (headerLines ++ E)) with hE2
    have hE2Nl : ∀ l ∈ E2, '\n' ∉ l := fun l hl => hD2Nl l (stripOneEmpty_subset _ l hl)
    have hfyJoin : minimalAutopatch (minimalAutopatch x) = joinlines (si ++ E2) ++ ['\n'] := by
      rw [hfy', hfyEq]
    have hfyLines : splitlines (minimalAutopatch (minimalAutopatch x)) = si ++ E2 := by
      rw [hfy']
      exact hfySplit
    have hE2NoImp : ∀ l ∈ E2, isImportLine l = false := by
      intro l hl
      rcases List.mem_append.mp (stripOneEmpty_subset _ l hl) with h0 | h0
      · simp only [List.mem_singleton] at h0
        subst h0
        decide
      · rcases List.mem_append.mp h0 with h0 | h0
        · exact hhdrNoImp l h0
        · exact hENoImp l h0
    have hImpFy : importLines (minimalAutopatch (minimalAutopatch x)) = si := by
      rw [importLines, hfyLines, List.filter_append, List.filter_eq_self.mpr hsiImp,
        List.filter_eq_nil_iff.mpr (fun a ha => by simp [hE2NoImp a ha])]
      simp
    have hA1fy : hasDocstringStart (minimalAutopatch (minimalAutopatch x)) = false := by
      refine hasDocstringStart_false_of_head _ c0 ?_ hc0props.1 hc0props.2.1 hc0props.2.2
      rw [hfyJoin, headerHead E2 hE2Nl, hc0]
    refine ⟨?_, ?_, ?_, ?_, ?_, ?_⟩
    · rw [hA1fx, hA1fy]
    · rw [hImpFy, hImpFx]
    · rw [hImpFx, hsi]
      exact sortedSet_sorted ii
    · rw [hImpFx, hsi]
      exact sortedSet_nodup ii
    · rw [hfxLines, hImpFx, takeWhile_all_true_append si E hsiImp,
        takeWhile_all_false E hENoImp]
      simp
    · intro hA3
      rw [hfxJoin, exactlyOneNewline_concat] at hA3
      rw [hfyJoin, exactlyOneNewline_concat]
      have hEndsE : endsWithNewline (joinlines (si ++ E)) = false := by
        cases hb2 : endsWithNewline (joinlines (si ++ E))
        · rfl
        · rw [hb2] at hA3
          simp at hA3
      rw [endsWithNewline_joinlines si E hsiNe hsiNonempty hsiNl hENl] at hEndsE
      have hElast : E.getLast? ≠ some ([] : Str) := by
        simpa using hEndsE
      rw [endsWithNewline_joinlines si E2 hsiNe hsiNonempty hsiNl hE2Nl]
      suffices h2 : E2.getLast? ≠ some ([] : Str) by simp [h2]
      rcases List.eq_nil_or_concat E with hEnil | ⟨ys, a, hEa⟩
      · have : E2.getLast? = some ("\"\"\"".toList) := by
          rw [hE2, hEnil]
          decide
        rw [this]
        intro hcon
        simp at hcon
      · rw [List.concat_eq_append] at hEa
        have hane : a ≠ [] := by
          intro h0
          subst h0
          apply hElast
          rw [hEa]
          simp
        have hD2last : ([[]] ++ (headerLines ++ E) : List Str).getLast? = some a := by
          rw [hEa, show ([[]] ++ (headerLines ++ (ys ++ [a])) : List Str)
            = ([[]] ++ headerLines ++ ys) ++ [a] by simp]
          rw [List.getLast?_append]
          rfl
        have hE2eq : E2 = [[]] ++ (headerLines ++ E) := by
          rw [hE2, stripOneEmpty, if_neg]
          rw [hD2last]
          intro hcon
          exact hane (Option.some.inj hcon)
        rw [hE2eq, hD2last]
        intro hcon
        exact hane (Option.some.inj hcon)

/-- C5 witness: the theorem applied at a concrete input (two unsorted
imports, no docstring, one trailing newline) — the first output satisfies
the exactly-one-newline invariant, and the implication yields it for the
second output; docstring presence agrees between the two outputs. -/
theorem minimalAutopatch_c5_witness :
    hasDocstringStart (minimalAutopatch (minimalAutopatch "import b\nimport a\nx = 1\n".toList))
        = hasDocstringStart (minimalAutopatch "import b\nimport a\nx = 1\n".toList) ∧
    endsWithExactlyOneNewline
        (minimalAutopatch (minimalAutopatch "import b\nimport a\nx = 1\n".toList)) = true := by
  have h := minimalAutopatch_c5 "import b\nimport a\nx = 1\n".toList
  exact ⟨h.1, h.2.2.2.2.2 (by decide)⟩

/-!
## `fers_refactor_planner.py`: `plan_evolution`

The llama collaborator is modelled as an oracle indexed by a call counter:
each `llama_cpp` invocation consumes one index and yields a reply text, a
`LlamaCPPError` (caught by the per-call handlers), or any other exception
(propagating to `plan_evolution`'s outer per-file handler).  `EvolutionMemory`
writes are modelled as an event list.  File reads (`_read_file`) are an
oracle `Str → Option Str`.
-/

/-- One `llama_cpp` call outcome. -/
inductive LlamaOutcome where
  | ok (text : Str)
  | llamaErr (msg : Str)
  | fatalErr (msg : Str)

/-- An `EvolutionMemory` update: `record_file_pass`, `record_file_fail`,
or `record_function_skip`. -/
inductive MemEvent where
  | filePass (rel : Str) (mode : RefactorMode)
  | fileFail (rel : Str) (reason : Str)
  | fnSkip (rel : Str) (fn : Str) (reason : Str)
deriving DecidableEq, Repr

/-- The strip set of `_extract_code_block`: `.strip("\n\r ")`. -/
def isStripSet (c : Char) : Bool := c == '\n' || c == '\r' || c == ' '

/-- Python `s.strip("\n\r ")`. -/
def stripNrSpace (s : Str) : Str :=
  ((s.dropWhile isStripSet).reverse.dropWhile isStripSet).reverse

/-- First index at which `pat` occurs in `s` (substring search). -/
def findFirstIdx (pat s : Str) : Option Nat :=
  (List.range (s.length + 1)).find? (fun i => List.isPrefixOf pat (s.drop i))

/-- Last index at which `pat` occurs in `s`. -/
def findLastIdx (pat s : Str) : Option Nat :=
  ((List.range (s.length + 1)).reverse).find? (fun i => List.isPrefixOf pat (s.drop i))

/-- Embeds `_extract_code_block(raw)`:
`re.search(r"```python(.*)```", raw, DOTALL | IGNORECASE)` — the leftmost
case-insensitive occurrence of the 9-character opener together with the
rightmost closer after it (greedy `.*`); on a match the group is returned
stripped of `"\n\r "`, otherwise the whole reply is returned stripped. -/
def extractCodeBlock (raw : Str) : Str :=
  match findFirstIdx "```python".toList (raw.map Char.toLower) with
  | none => stripNrSpace raw
  | some i =>
      match findLastIdx "```".toList raw with
      | none => stripNrSpace raw
      | some j =>
          if i + 9 ≤ j then stripNrSpace ((raw.drop (i + 9)).take (j - (i + 9)))
          else stripNrSpace raw

/-- Word characters of the regex `[\w]`. -/
def isWordChar (c : Char) : Bool := c.isAlphanum || c == '_'

/-- Tries the pattern `\ndef\s+([A-Za-z_][\w]*)\s*\(.*?\):` at exact
position `i` of `s`; returns the function name and the match end.  The lazy
`.*?` stops at the first `):` after the opening parenthesis. -/
def matchFnAt (s : Str) (i : Nat) : Option (Str × Nat) :=
  let t := s.drop i
  if startsWith "\ndef".toList t then
    let r1 := t.drop 4
    let ws := r1.takeWhile isPySpace
    if ws.isEmpty then none
    else
      let r2 := r1.drop ws.length
      match r2.head? with
      | none => none
      | some c =>
          if c.isAlpha || c == '_' then
            let name := r2.takeWhile isWordChar
            let r3 := r2.drop name.length
            let ws2 := r3.takeWhile isPySpace
            let r4 := r3.drop ws2.length
            match r4.head? with
            | some h =>
                if h = '(' then
                  match findFirstIdx "):".toList (r4.drop 1) with
                  | none => none
                  | some j =>
                      some (name, i + 4 + ws.length + name.length + ws2.length + 1 + j + 2)
                else none
            | none => none
          else none
  else none

/-- Leftmost match of the function-header pattern at a position ≥ `pos`. -/
def firstFnMatchFrom (s : Str) (pos : Nat) : Option (Nat × Str × Nat) :=
  ((List.range (s.length + 1 - pos)).map (fun d => d + pos)).findSome?
    (fun i => (matchFnAt s i).map (fun p => (i, p.1, p.2)))

/-- The non-overlapping scan of `re.finditer`: each search resumes at the
previous match end (`fuel` bounds the loop; match ends strictly advance). -/
def scanFnsFrom (s : Str) (pos fuel : Nat) : List (Nat × Str × Nat) :=
  match fuel with
  | 0 => []
  | fuel' + 1 =>
      match firstFnMatchFrom s pos with
      | none => []
      | some (st, nm, en) => (st, nm, en) :: scanFnsFrom s en fuel'

/-- A function span found by `_extract_functions`: name, body slice, and
the start/stop offsets into `"\n" + content`. -/
structure FuncSpan where
  name : Str
  body : Str
  start : Nat
  stop : Nat
deriving DecidableEq, Repr

/-- Builds the span records: each body runs from the match start to the
next match start (or the end of `"\n" + content`). -/
def spansOf (s : Str) : List (Nat × Str × Nat) → List FuncSpan
  | [] => []
  | (st, nm, _) :: rest =>
      let stp := match rest with
        | [] => s.length
        | (st2, _, _) :: _ => st2
      ⟨nm, (s.drop st).take (stp - st), st, stp⟩ :: spansOf s rest

/-- Embeds `_extract_functions(content)`: the header scan over
`"\n" + content`. -/
def extractFunctions (content : Str) : List FuncSpan :=
  let s := '\n' :: content
  spansOf s (scanFnsFrom s 0 (s.length + 1))

/-- The patch built by `_minimal_autopatch`. -/
def minimalAutopatchPatch (rel content : Str) : Patch := ⟨rel, minimalAutopatch content⟩

/-- Embeds `_refactor_full_file`: budget check, one llama call, extraction,
no-op check; a `LlamaCPPError` records a file failure and yields `None`. -/
def refactorFullFile (cfg : PlannerConfig) (oracle : Nat → LlamaOutcome) (k : Nat)
    (rel content : Str) : Except Str (Option Patch) × List MemEvent × Nat :=
  if cfg.safeFileTokenLimit < estimateTokens content then (.ok none, [], k)
  else
    match oracle k with
    | .fatalErr m => (.error m, [], k + 1)
    | .llamaErr m => (.ok none, [.fileFail rel ("llama_error:".toList ++ m)], k + 1)
    | .ok raw =>
        let newCode := extractCodeBlock raw
        if newCode.isEmpty || pyStrip newCode == pyStrip content then (.ok none, [], k + 1)
        else (.ok (some ⟨rel, newCode⟩), [], k + 1)

/-- Embeds `_refactor_small_patch`: over-budget input goes straight to the
local minimal autopatch; a llama error or no-op reply falls back to it too;
this helper never fails to produce a patch (only a non-`LlamaCPPError`
exception escapes). -/
def refactorSmallPatch (cfg : PlannerConfig) (oracle : Nat → LlamaOutcome) (k : Nat)
    (rel content : Str) : Except Str Patch × List MemEvent × Nat :=
  if cfg.safeFileTokenLimit < estimateTokens content then
    (.ok (minimalAutopatchPatch rel content), [], k)
  else
    match oracle k with
    | .fatalErr m => (.error m, [], k + 1)
    | .llamaErr _ => (.ok (minimalAutopatchPatch rel content), [], k + 1)
    | .ok raw =>
        let nc := extractCodeBlock raw
        if nc.isEmpty || pyStrip nc == pyStrip content then
          (.ok (minimalAutopatchPatch rel content), [], k + 1)
        else (.ok ⟨rel, nc⟩, [], k + 1)

/-- Embeds `_refactor_function_body`: an over-budget function records a
skip; a llama error records a skip; a no-op reply yields `None`. -/
def refactorFunctionBody (cfg : PlannerConfig) (oracle : Nat → LlamaOutcome) (k : Nat)
    (rel fnName fnBody : Str) : Except Str (Option Str) × List MemEvent × Nat :=
  let fnTokens := estimateTokens fnBody
  if cfg.safeFnTokenLimit < fnTokens then
    (.ok none, [.fnSkip rel fnName ("too_large:".toList ++ (Nat.repr fnTokens).toList)], k)
  else
    match oracle k with
    | .fatalErr m => (.error m, [], k + 1)
    | .llamaErr _ => (.ok none, [.fnSkip rel fnName "llama_error".toList], k + 1)
    | .ok raw =>
        let nb := extractCodeBlock raw
        if nb.isEmpty || pyStrip nb == pyStrip fnBody then (.ok none, [], k + 1)
        else (.ok (some nb), [], k + 1)

/-- The per-chunk loop of `_refactor_chunked_large_function`: over-budget
chunks are kept as-is without a call; a llama error keeps the chunk; a
reply is extracted and substituted. -/
def chunkLoop (cfg : PlannerConfig) (oracle : Nat → LlamaOutcome) :
    List Str → Nat → Except Str (List Str) × Nat
  | [], k => (.ok [], k)
  | ch :: rest, k =>
      if cfg.safeFnTokenLimit < estimateTokens ch then
        match chunkLoop cfg oracle rest k with
        | (.error m, k') => (.error m, k')
        | (.ok ncs, k') => (.ok (ch :: ncs), k')
      else
        match oracle k with
        | .fatalErr m => (.error m, k + 1)
        | .llamaErr _ =>
            match chunkLoop cfg oracle rest (k + 1) with
            | (.error m, k') => (.error m, k')
            | (.ok ncs, k') => (.ok (ch :: ncs), k')
        | .ok raw =>
            match chunkLoop cfg oracle rest (k + 1) with
            | (.error m, k') => (.error m, k')
            | (.ok ncs, k') => (.ok (extractCodeBlock raw :: ncs), k')

/-- Embeds `_refactor_chunked_large_function`: split, rewrite chunks,
reassemble by concatenation, no-op check. -/
def refactorChunkedLargeFunction (cfg : PlannerConfig) (oracle : Nat → LlamaOutcome)
    (k : Nat) (fnBody : Str) : Except Str (Option Str) × Nat :=
  let chunks := chunkText fnBody CHUNK_SIZE CHUNK_OVERLAP
  match chunkLoop cfg oracle chunks k with
  | (.error m, k') => (.error m, k')
  | (.ok newChunks, k') =>
      let newBody := reassembleChunks newChunks
      if pyStrip newBody == pyStrip fnBody then (.ok none, k') else (.ok (some newBody), k')

/-- The per-function loop of `plan_evolution`'s FUNCTION_OR_CHUNK branch:
for each of the first functions, rewrite the body (direct or chunked) and
splice the result at the *original* offsets into the running text. -/
def fnLoop (cfg : PlannerConfig) (oracle : Nat → LlamaOutcome) (rel : Str) :
    List FuncSpan → Str → Bool → Nat → Except Str (Str × Bool) × List MemEvent × Nat
  | [], updated, changed, k => (.ok (updated, changed), [], k)
  | fn :: rest, updated, changed, k =>
      let step : Except Str (Option Str) × List MemEvent × Nat :=
        if estimateTokens fn.body ≤ cfg.safeFnTokenLimit then
          refactorFunctionBody cfg oracle k rel fn.name fn.body
        else
          match refactorChunkedLargeFunction cfg oracle k fn.body with
          | (r, k') => (r, [], k')
      match step with
      | (.error m, evs, k') => (.error m, evs, k')
      | (.ok none, evs, k') =>
          match fnLoop cfg oracle rel rest updated changed k' with
          | (r, evs2, k'') => (r, evs ++ evs2, k'')
      | (.ok (some nb), evs, k') =>
          let updated' := updated.take fn.start ++ '\n' :: (nb ++ '\n' :: updated.drop fn.stop)
          match fnLoop cfg oracle rel rest updated' true k' with
          | (r, evs2, k'') => (r, evs ++ evs2, k'')

/-- The FUNCTION_OR_CHUNK branch of `plan_evolution`: no functions found
means minimal autopatch; otherwise the first three functions are processed;
if nothing changed (or the result is a whitespace no-op) the minimal
autopatch is used, else the spliced text with its leading newlines
stripped. -/
def planFunctionOrChunk (cfg : PlannerConfig) (oracle : Nat → LlamaOutcome) (k : Nat)
    (rel content : Str) : Except Str Patch × List MemEvent × Nat :=
  let funcs := extractFunctions content
  if funcs.isEmpty then (.ok (minimalAutopatchPatch rel content), [], k)
  else
    match fnLoop cfg oracle rel (funcs.take 3) ('\n' :: content) false k with
    | (.error m, evs, k') => (.error m, evs, k')
    | (.ok (updated, changed), evs, k') =>
        if changed && !(pyStrip updated == pyStrip content) then
          (.ok ⟨rel, updated.dropWhile (fun c => c == '\n')⟩, evs, k')
        else (.ok (minimalAutopatchPatch rel content), evs, k')

/-- The patch-computation part of `plan_evolution`'s per-file `try` block
(the mode dispatch, with the AGGRESSIVE → small-patch cascade). -/
def planFileInner (cfg : PlannerConfig) (oracle : Nat → LlamaOutcome) (k : Nat)
    (rel content : Str) : Except Str (Option Patch) × List MemEvent × Nat :=
  match selectMode cfg (estimateTokens content) with
  | .AGGRESSIVE =>
      match refactorFullFile cfg oracle k rel content with
      | (.error m, evs, k') => (.error m, evs, k')
      | (.ok (some p), evs, k') => (.ok (some p), evs, k')
      | (.ok none, evs, k') =>
          match refactorSmallPatch cfg oracle k' rel content with
          | (.error m, evs2, k'') => (.error m, evs ++ evs2, k'')
          | (.ok p, evs2, k'') => (.ok (some p), evs ++ evs2, k'')
  | .SMALL_PATCH =>
      match refactorSmallPatch cfg oracle k rel content with
      | (.error m, evs, k') => (.error m, evs, k')
      | (.ok p, evs, k') => (.ok (some p), evs, k')
  | _ =>
      match planFunctionOrChunk cfg oracle k rel content with
      | (.error m, evs, k') => (.error m, evs, k')
      | (.ok p, evs, k') => (.ok (some p), evs, k')

/-- One file of `plan_evolution`'s loop: on success the patch is appended
and `record_file_pass(rel, mode)` fires (the `else` branch recording
`MINIMAL` is kept from the source although the helpers always yield a
patch); an escaped exception records `record_file_fail` and drops the
file. -/
def planFile (cfg : PlannerConfig) (oracle : Nat → LlamaOutcome) (k : Nat)
    (rel content : Str) : Option Patch × List MemEvent × Nat :=
  match planFileInner cfg oracle k rel content with
  | (.error m, evs, k') => (none, evs ++ [.fileFail rel ("exception:".toList ++ m)], k')
  | (.ok (some p), evs, k') =>
      (some p, evs ++ [.filePass rel (selectMode cfg (estimateTokens content))], k')
  | (.ok none, evs, k') =>
      (some (minimalAutopatchPatch rel content), evs ++ [.filePass rel .MINIMAL], k')

/-- The full loop of `plan_evolution` over the normalized candidate list:
unreadable or empty content records `no_content` and continues; otherwise
the per-file step runs and the remaining candidates are still processed. -/
def planFiles (cfg : PlannerConfig) (oracle : Nat → LlamaOutcome)
    (readFile : Str → Option Str) : Nat → List Str → List Patch × List MemEvent
  | _, [] => ([], [])
  | k, rel :: rest =>
      match readFile rel with
      | none =>
          let r := planFiles cfg oracle readFile k rest
          (r.1, .fileFail rel "no_content".toList :: r.2)
      | some content =>
          if content.isEmpty then
            let r := planFiles cfg oracle readFile k rest
            (r.1, .fileFail rel "no_content".toList :: r.2)
          else
            match planFile cfg oracle k rel content with
            | (p, fevs, k') =>
                let r := planFiles cfg oracle readFile k' rest
                (match p with
                  | some patch => patch :: r.1
                  | none => r.1, fevs ++ r.2)

/-- Embeds `_normalize_candidate_files` for string-shaped candidates:
backslashes become slashes and a path is dropped when any of its `/`-split
segments is a configured exclude directory (the `Path`/dict shapes reduce
to the same string once their path field is read). -/
def normalizeCandidateFiles (excludeDirs : List Str) (items : List Str) : List Str :=
  (items.map (fun rel => rel.map (fun c => if c == '\\' then '/' else c))).filter
    (fun rel => !(excludeDirs.any (fun part => decide (part ∈ rel.splitOn '/'))))

/-- Embeds `plan_evolution`: normalize, then process each candidate. -/
def planEvolution (cfg : PlannerConfig) (oracle : Nat → LlamaOutcome)
    (readFile : Str → Option Str) (excludeDirs : List Str)
    (candidates : List Str) : List Patch × List MemEvent :=
  planFiles cfg oracle readFile 0 (normalizeCandidateFiles excludeDirs candidates)

/-- Every patch `_refactor_full_file` yields is for the given file. -/
theorem refactorFullFile_file (cfg : PlannerConfig) (oracle : Nat → LlamaOutcome)
    (k : Nat) (rel content : Str) (p : Patch) (evs : List MemEvent) (k' : Nat)
    (h : refactorFullFile cfg oracle k rel content = (.ok (some p), evs, k')) :
    p.file = rel := by
  simp only [refactorFullFile] at h
  split at h
  · simp at h
  · split at h
    · simp at h
    · simp at h
    · split at h
      · simp at h
      · simp only [Prod.mk.injEq, Except.ok.injEq, Option.some.injEq] at h
        rw [← h.1]

/-- Every patch `_refactor_small_patch` yields is for the given file. -/
theorem refactorSmallPatch_file (cfg : PlannerConfig) (oracle : Nat → LlamaOutcome)
    (k : Nat) (rel content : Str) (p : Patch) (evs : List MemEvent) (k' : Nat)
    (h : refactorSmallPatch cfg oracle k rel content = (.ok p, evs, k')) :
    p.file = rel := by
  simp only [refactorSmallPatch] at h
  split at h
  · simp only [Prod.mk.injEq, Except.ok.injEq] at h
    rw [← h.1]
    rfl
  · split at h
    · simp at h
    · simp only [Prod.mk.injEq, Except.ok.injEq] at h
      rw [← h.1]
      rfl
    · split at h
      · simp only [Prod.mk.injEq, Except.ok.injEq] at h
        rw [← h.1]
        rfl
      · simp only [Prod.mk.injEq, Except.ok.injEq] at h
        rw [← h.1]

/-- Every patch the FUNCTION_OR_CHUNK branch yields is for the given file. -/
theorem planFunctionOrChunk_file (cfg : PlannerConfig) (oracle : Nat → LlamaOutcome)
    (k : Nat) (rel content : Str) (p : Patch) (evs : List MemEvent) (k' : Nat)
    (h : planFunctionOrChunk cfg oracle k rel content = (.ok p, evs, k')) :
    p.file = rel := by
  simp only [planFunctionOrChunk] at h
  split at h
  · simp only [Prod.mk.injEq, Except.ok.injEq] at h
    rw [← h.1]
    rfl
  · split at h
    · simp at h
    · split at h
      · simp only [Prod.mk.injEq, Except.ok.injEq] at h
        rw [← h.1]
      · simp only [Prod.mk.injEq, Except.ok.injEq] at h
        rw [← h.1]
        rfl

/-- A successful per-file patch computation always yields a patch
(never `None`) and that patch is for the processed file. -/
theorem planFileInner_ok (cfg : PlannerConfig) (oracle : Nat → LlamaOutcome)
    (k : Nat) (rel content : Str) (op : Option Patch) (evs : List MemEvent) (k' : Nat)
    (h : planFileInner cfg oracle k rel content = (.ok op, evs, k')) :
    ∃ p, op = some p ∧ p.file = rel := by
  rcases hm : selectMode cfg (estimateTokens content) with _ | _ | _ | _ <;>
    simp only [planFileInner, hm] at h
  · rcases hf : refactorFullFile cfg oracle k rel content with ⟨rf, evsf, kf⟩
    rcases rf with m | opf
    · simp [hf] at h
    · rcases opf with _ | pf
      · rcases hs : refactorSmallPatch cfg oracle kf rel content with ⟨rs, evss, ks⟩
        rcases rs with m | ps
        · simp [hf, hs] at h
        · simp only [hf, hs, Prod.mk.injEq, Except.ok.injEq] at h
          exact ⟨ps, h.1.symm, refactorSmallPatch_file cfg oracle kf rel content ps evss ks hs⟩
      · simp only [hf, Prod.mk.injEq, Except.ok.injEq] at h
        exact ⟨pf, h.1.symm, refactorFullFile_file cfg oracle k rel content pf evsf kf hf⟩
  · rcases hs : refactorSmallPatch cfg oracle k rel content with ⟨rs, evss, ks⟩
    rcases rs with m | ps
    · simp [hs] at h
    · simp only [hs, Prod.mk.injEq, Except.ok.injEq] at h
      exact ⟨ps, h.1.symm, refactorSmallPatch_file cfg oracle k rel content ps evss ks hs⟩
  · rcases hs : planFunctionOrChunk cfg oracle k rel content with ⟨rs, evss, ks⟩
    rcases rs with m | ps
    · simp [hs] at h
    · simp only [hs, Prod.mk.injEq, Except.ok.injEq] at h
      exact ⟨ps, h.1.symm, planFunctionOrChunk_file cfg oracle k rel content ps evss ks hs⟩
  · rcases hs : planFunctionOrChunk cfg oracle k rel content with ⟨rs, evss, ks⟩
    rcases rs with m | ps
    · simp [hs] at h
    · simp only [hs, Prod.mk.injEq, Except.ok.injEq] at h
      exact ⟨ps, h.1.symm, planFunctionOrChunk_file cfg oracle k rel content ps evss ks hs⟩

/-- Shape of every per-file outcome: either exactly one patch for the file
with a final `record_file_pass(rel, selected mode)`, or no patch with a
final `record_file_fail(rel, exception)`. -/
theorem planFile_spec (cfg : PlannerConfig) (oracle : Nat → LlamaOutcome)
    (k : Nat) (rel content : Str) :
    (∃ p evs k₂, planFile cfg oracle k rel content
        = (some p, evs ++ [MemEvent.filePass rel (selectMode cfg (estimateTokens content))], k₂)
        ∧ p.file = rel) ∨
    (∃ evs m k₂, planFile cfg oracle k rel content
        = (none, evs ++ [MemEvent.fileFail rel ("exception:".toList ++ m)], k₂)) := by
  rcases hi : planFileInner cfg oracle k rel content with ⟨r, evs, k₂⟩
  rcases r with m | op
  · right
    exact ⟨evs, m, k₂, by simp [planFile, hi]⟩
  · obtain ⟨p, rfl, hfile⟩ := planFileInner_ok cfg oracle k rel content op evs k₂ hi
    left
    exact ⟨p, evs, k₂, by simp [planFile, hi], hfile⟩

/-- `_select_mode` never yields FUNCTION_OR_CHUNK within the file budget. -/
theorem selectMode_ne_FOC (cfg : PlannerConfig) (tokens : Nat)
    (h : tokens ≤ cfg.safeFileTokenLimit) :
    selectMode cfg tokens ≠ .FUNCTION_OR_CHUNK := by
  intro hcon
  simp only [selectMode] at hcon
  split_ifs at hcon <;> simp_all

/-- `_select_mode` never yields the MINIMAL tag. -/
theorem selectMode_ne_MINIMAL (cfg : PlannerConfig) (tokens : Nat) :
    selectMode cfg tokens ≠ .MINIMAL := by
  intro hcon
  simp only [selectMode] at hcon
  split_ifs at hcon <;> simp_all

/-- When every llama call fails with `LlamaCPPError` and the file is within
the file-level budget, the per-file computation returns exactly the local
minimal-autopatch patch. -/
theorem planFileInner_all_llamaErr (cfg : PlannerConfig) (oracle : Nat → LlamaOutcome)
    (k : Nat) (rel content : Str)
    (ho : ∀ i, ∃ m, oracle i = .llamaErr m)
    (hbudget : estimateTokens content ≤ cfg.safeFileTokenLimit) :
    ∃ evs k₂, planFileInner cfg oracle k rel content
      = (.ok (some (minimalAutopatchPatch rel content)), evs, k₂) := by
  rcases hm : selectMode cfg (estimateTokens content) with _ | _ | _ | _
  · obtain ⟨m1, hm1⟩ := ho k
    have hfull : refactorFullFile cfg oracle k rel content
        = (.ok none, [.fileFail rel ("llama_error:".toList ++ m1)], k + 1) := by
      simp only [refactorFullFile]
      rw [if_neg (by omega), hm1]
    obtain ⟨m2, hm2⟩ := ho (k + 1)
    have hsmall : refactorSmallPatch cfg oracle (k + 1) rel content
        = (.ok (minimalAutopatchPatch rel content), [], k + 1 + 1) := by
      simp only [refactorSmallPatch]
      rw [if_neg (by omega), hm2]
    exact ⟨[.fileFail rel ("llama_error:".toList ++ m1)], k + 1 + 1, by
      simp [planFileInner, hm, hfull, hsmall]⟩
  · obtain ⟨m1, hm1⟩ := ho k
    have hsmall : refactorSmallPatch cfg oracle k rel content
        = (.ok (minimalAutopatchPatch rel content), [], k + 1) := by
      simp only [refactorSmallPatch]
      rw [if_neg (by omega), hm1]
    exact ⟨[], k + 1, by simp [planFileInner, hm, hsmall]⟩
  · exact absurd hm (selectMode_ne_FOC cfg _ hbudget)
  · exact absurd hm (selectMode_ne_MINIMAL cfg _)

/-!
# Claim C3 — one patch per readable candidate, memory recording, exceptions
-/

/-- C3 counterexample: for a small readable file with every llama call
failing, the planning step produces exactly one patch — supplied by the
local minimal autopatch — but writes *two* EvolutionMemory updates, not
exactly one, and the success update records the cost-selected mode
(`AGGRESSIVE`), not the strategy that actually produced the patch. -/
theorem planEvolution_c3_counterexample :
    (planFiles defaultPlannerConfig (fun _ => .llamaErr [])
        (fun rel => if rel == "m.py".toList then some "x = 1\n".toList else none)
        0 ["m.py".toList]).1
      = [minimalAutopatchPatch "m.py".toList "x = 1\n".toList] ∧
    (planFiles defaultPlannerConfig (fun _ => .llamaErr [])
        (fun rel => if rel == "m.py".toList then some "x = 1\n".toList else none)
        0 ["m.py".toList]).2
      = [MemEvent.fileFail "m.py".toList "llama_error:".toList,
         MemEvent.filePass "m.py".toList .AGGRESSIVE] ∧
    ¬ (planFiles defaultPlannerConfig (fun _ => .llamaErr [])
        (fun rel => if rel == "m.py".toList then some "x = 1\n".toList else none)
        0 ["m.py".toList]).2.length = 1 := by
  refine ⟨by decide, by decide, by decide⟩

/-- C3 (amended): for every candidate whose content reads successfully and
is non-empty, the planning loop either appends exactly one Patch for that
file — ending its memory events with a `record_file_pass` naming the
cost-selected strategy mode (additional failure/skip records from attempted
strategies may precede it) — or, when a non-`LlamaCPPError` exception
escapes, appends no patch and ends with a `record_file_fail` for that file;
in both cases the remaining candidates are still processed.  When every
external call fails with `LlamaCPPError` and the file is within the
file-level budget, the deterministic minimal autopatch supplies the
patch. -/
theorem planEvolution_per_file_c3 (cfg : PlannerConfig) (oracle : Nat → LlamaOutcome)
    (readFile : Str → Option Str) (k : Nat) (rel content : Str) (rest : List Str)
    (hread : readFile rel = some content) (hne : content ≠ []) :
    ((∃ p evs k₂,
        planFile cfg oracle k rel content
          = (some p, evs ++ [MemEvent.filePass rel (selectMode cfg (estimateTokens content))], k₂)
        ∧ p.file = rel
        ∧ planFiles cfg oracle readFile k (rel :: rest)
            = (p :: (planFiles cfg oracle readFile k₂ rest).1,
               (evs ++ [MemEvent.filePass rel (selectMode cfg (estimateTokens content))])
                 ++ (planFiles cfg oracle readFile k₂ rest).2)) ∨
      (∃ evs m k₂,
        planFile cfg oracle k rel content
          = (none, evs ++ [MemEvent.fileFail rel ("exception:".toList ++ m)], k₂)
        ∧ planFiles cfg oracle readFile k (rel :: rest)
            = ((planFiles cfg oracle readFile k₂ rest).1,
               (evs ++ [MemEvent.fileFail rel ("exception:".toList ++ m)])
                 ++ (planFiles cfg oracle readFile k₂ rest).2))) ∧
    ((∀ i, ∃ m, oracle i = .llamaErr m) →
      estimateTokens content ≤ cfg.safeFileTokenLimit →
      ∃ evs k₂, planFile cfg oracle k rel content
        = (some (minimalAutopatchPatch rel content),
           evs ++ [MemEvent.filePass rel (selectMode cfg (estimateTokens content))], k₂)) := by
  have hempty : content.isEmpty = false := by
    cases content with
    | nil => exact absurd rfl hne
    | cons c t => rfl
  constructor
  · rcases planFile_spec cfg oracle k rel content with ⟨p, evs, k₂, hpf, hfile⟩ |
      ⟨evs, m, k₂, hpf⟩
    · left
      refine ⟨p, evs, k₂, hpf, hfile, ?_⟩
      simp only [planFiles, hread, hempty, Bool.false_eq_true, if_false, hpf]
    · right
      refine ⟨evs, m, k₂, hpf, ?_⟩
      simp only [planFiles, hread, hempty, Bool.false_eq_true, if_false, hpf]
  · intro ho hbudget
    obtain ⟨evs, k₂, hinner⟩ := planFileInner_all_llamaErr cfg oracle k rel content ho hbudget
    exact ⟨evs, k₂, by simp [planFile, hinner]⟩

/-- C3 witness: the theorem applied at a concrete readable one-line file
with an always-failing llama oracle — the fallback clause yields the
minimal-autopatch patch with a final file-pass record. -/
theorem planEvolution_per_file_c3_witness :
    ∃ evs k₂, planFile defaultPlannerConfig (fun _ => .llamaErr [])
        0 "m.py".toList "x = 1\n".toList
      = (some (minimalAutopatchPatch "m.py".toList "x = 1\n".toList),
         evs ++ [MemEvent.filePass "m.py".toList
           (selectMode defaultPlannerConfig (estimateTokens "x = 1\n".toList))], k₂) :=
  (planEvolution_per_file_c3 defaultPlannerConfig (fun _ => .llamaErr [])
    (fun rel => if rel == "m.py".toList then some "x = 1\n".toList else none)
    0 "m.py".toList "x = 1\n".toList [] (by decide) (by decide)).2
    (fun _ => ⟨[], rfl⟩) (by decide)
